import Mathlib

/-!
Verification of the sequence classification and naming engine in
`heudiconv/heuristics/bids_longitudinal.py`.

The Python source is shallowly embedded below: strings become `List Char`,
Python dictionaries become insertion-ordered association lists, and every
operation that can raise an exception (`IndexError`, `KeyError`) returns an
`Option`, with `none` standing for the raised exception.

The free names `direction`, `t1_dicom`, `t2_dicom`,
`another_series_has_identical_start_time` and `previous_series_is_sbref`
appear in the source but are not defined anywhere in the repository; they are
modelled from the specification (each such definition carries a doc comment
starting with `Modelled from the spec:`).
-/

set_option autoImplicit false

namespace BidsLong

/-- Strings are modelled as lists of characters (Python `str`). -/
abbrev Str := List Char

/-- Python `str.lower()` (ASCII, which covers every string in the source). -/
def lowerStr (s : Str) : Str := s.map Char.toLower

/-- Worker for `containsSub`: does `pat` occur (contiguously) in `s`? -/
def containsAux (pat : Str) : Str → Bool
  | [] => pat.isEmpty
  | c :: rest => pat.isPrefixOf (c :: rest) || containsAux pat rest

/-- Python `pat in hay` substring test. -/
def containsSub (hay pat : Str) : Bool := containsAux pat hay

/-- Python `s.endswith(suf)`. -/
def endsWithStr (s suf : Str) : Bool := suf.isSuffixOf s

/-- Fuelled worker for `replaceAll`; the fuel is an upper bound on the length
of the string still to be scanned, so the recursion is structural and
kernel-reducible. -/
def replaceAllF (pat rep : Str) : Nat → Str → Str
  | _, [] => []
  | 0, s => s
  | Nat.succ fuel, c :: rest =>
      if pat ≠ [] ∧ pat.isPrefixOf (c :: rest) then
        rep ++ replaceAllF pat rep fuel ((c :: rest).drop pat.length)
      else
        c :: replaceAllF pat rep fuel rest

/-- Python `s.replace(pat, rep)`: replaces every non-overlapping occurrence,
scanning left to right.  (For the degenerate `pat = []`, which the source
never uses, the string is returned unchanged.) -/
def replaceAll (s pat rep : Str) : Str := replaceAllF pat rep s.length s

/-- Fuelled worker for `splitOnSub`. -/
def splitOnSubF (pat : Str) : Nat → Str → Str → List Str
  | _, [], cur => [cur.reverse]
  | 0, s, cur => [cur.reverse ++ s]
  | Nat.succ fuel, c :: rest, cur =>
      if pat ≠ [] ∧ pat.isPrefixOf (c :: rest) then
        cur.reverse :: splitOnSubF pat fuel ((c :: rest).drop pat.length) []
      else
        splitOnSubF pat fuel rest (c :: cur)

/-- Python `s.split(pat)` for a non-empty separator `pat`. -/
def splitOnSub (s pat : Str) : List Str := splitOnSubF pat s.length s []

/-- The list of known task labels scanned by `extract_task_name`, in source
order. -/
def knownTasks : List Str :=
  [("rest").data, ("face").data, ("conflict").data, ("gamble").data,
   ("fix").data, ("films").data, ("inscapes").data, ("lo bold").data,
   ("loc bold").data, ("mt bold").data, ("ret bold").data]

/-- The eleven strings `extract_task_name` can return when the lowered input
contains a known task label or no `'task'` marker: the known-task stems after
stripping `' bold'` and applying the `'lo' -> 'loc'` fix, plus the `'TASK'`
fallback.  All are non-empty and purely alphabetic. -/
def taskResults : List Str :=
  [("rest").data, ("face").data, ("conflict").data, ("gamble").data,
   ("fix").data, ("films").data, ("inscapes").data, ("loc").data,
   ("mt").data, ("ret").data, ("TASK").data]

/-- The `for task_name in known_tasks: ... break / else: task_name = ''`
loop of `extract_task_name`: the first label contained in `prot_name` is
returned with a trailing `' bold'` qualifier stripped; if nothing matches the
result is the empty string. -/
def matchKnown (pn : Str) : List Str → Str
  | [] => []
  | t :: rest =>
      if containsSub pn t then (splitOnSub t (" bold").data).headD []
      else matchKnown pn rest

/-- `extract_task_name` from the source.  `none` models the `IndexError`
raised by `task_name[0]` when the text after the `task` marker is empty. -/
def extract_task_name (prot_name : Str) : Option Str :=
  let pn := lowerStr prot_name
  let t0 := matchKnown pn knownTasks
  -- ad hoc fixes:
  let t1 := if t0 = ("lo").data then ("loc").data else t0
  -- if we don't find a known task, try finding the keyword "task":
  if t1 = [] then
    if containsSub pn (("task").data) then
      let afterTask := ((splitOnSub pn (("task").data)).getD 1 [])
      match afterTask with
      | [] => none          -- `task_name[0]` raises IndexError
      | c :: cs =>
          let t2 := if c = '-' ∨ c = '_' then cs else c :: cs
          let t3 := (splitOnSub t2 (("_").data)).headD []
          let t4 := (splitOnSub t3 (("-").data)).headD []
          some (t4.filter (fun ch => ch ≠ ' '))
    else
      some ("TASK").data    -- fallback
  else
    some t1

/-!
## Record model

A `SeriesRec` is the per-series metadata namedtuple consumed by the
heuristic.  Optional string fields (`date`, `time`, `series_uid`) follow
Python truthiness: the empty string stands for a missing value.
-/

structure SeriesRec where
  series_id : Str
  date : Str
  time : Str
  series_uid : Str
  protocol_name : Str
  series_description : Str
  sequence_name : Str
  image_type : List Str
  dim4 : Nat
  deriving DecidableEq

/-!
## Naming keys and the classification map

`create_key` returns the tuple `(template, outtype, annotation_classes)`.
Python dictionary keys in `infotodict` are such tuples, but
`add_series_to_info_dict` also compares its key against the string `''`, so
a dictionary key is modelled as either a string or a tuple (`PKey`).
Python dictionaries become insertion-ordered association lists.
-/

structure KeyT where
  template : Str
  outtype : List Str
  ann : Option Unit
  deriving DecidableEq

/-- A Python dictionary key: either a plain string or a `create_key` tuple. -/
inductive PKey where
  | ks (s : Str)
  | kt (k : KeyT)
  deriving DecidableEq

/-- One assignment entry: `{'item': series_id}` or
`{'item': series_id, 'acq': acq}`. -/
structure Asg where
  item : Str
  acq : Option Str
  deriving DecidableEq

/-- The classification map (`info` in the source): an insertion-ordered
dictionary from keys to assignment sequences. -/
abbrev PMap := List (PKey × List Asg)

/-- Python `info[k]` lookup (first matching entry). -/
def pyLookup (m : PMap) (k : PKey) : Option (List Asg) :=
  (m.find? (fun e => e.1 = k)).map (fun e => e.2)

/-- Does the dictionary have key `k` (Python `k in info`)? -/
def hasKey (m : PMap) (k : PKey) : Bool :=
  m.any (fun e => e.1 = k)

/-- Python `info[k] = v`: update in place if the key exists (keeping its
position), otherwise append a new entry. -/
def pySet (m : PMap) (k : PKey) (v : List Asg) : PMap :=
  if hasKey m k then m.map (fun e => if e.1 = k then (k, v) else e)
  else m ++ [(k, v)]

/-- Python `info.pop(k)` (the removal part; the value is read separately). -/
def pyRemove (m : PMap) (k : PKey) : PMap :=
  m.filter (fun e => ¬ e.1 = k)

/-- Python `info[k].append(a)`; `none` models the `KeyError` raised when the
key is absent. -/
def dictAppend (m : PMap) (k : PKey) (a : Asg) : Option PMap :=
  match pyLookup m k with
  | some v => some (pySet m k (v ++ [a]))
  | none => none

/-- The return value of `add_series_to_info_dict`: Python `None` on the
normal path, or the class object `Exception` returned (not raised!) by the
guard. -/
inductive PyRet where
  | retNone
  | retExceptionClass
  deriving DecidableEq

/-- `add_series_to_info_dict` from the source: adds a series to the `info`
dictionary.  The first component of the result is the function's return
value, the second the (possibly updated) dictionary. -/
def add_series_to_info_dict (series_id : Str) (mykey : PKey)
    (info : Option PMap) (acq : Str) : PyRet × Option PMap :=
  match info with
  | none => (PyRet.retExceptionClass, none)
  | some m =>
      if mykey = PKey.ks [] then (PyRet.retExceptionClass, some m)
      else
        let a : Asg := if acq = [] then ⟨series_id, none⟩
                       else ⟨series_id, some acq⟩
        match pyLookup m mykey with
        | some v => (PyRet.retNone, some (pySet m mykey (v ++ [a])))
        | none => (PyRet.retNone, some (m ++ [(mykey, a :: [])]))

/-- Total wrapper used by `infotodict`, which always calls
`add_series_to_info_dict` with a present dictionary and a tuple key (the
fallback branch is unreachable: on a `some` dictionary the function always
returns a `some` dictionary). -/
def addS (series_id : Str) (k : KeyT) (m : PMap) (acq : Str) : PMap :=
  match (add_series_to_info_dict series_id (PKey.kt k) (some m) acq).2 with
  | some m' => m'
  | none => m

/-!
## Temporal orderer
-/

/-- Python `<` on strings: lexicographic comparison by code point. -/
def lexLt : Str → Str → Bool
  | [], [] => false
  | [], _ :: _ => true
  | _ :: _, [] => false
  | a :: as_, b :: bs => if a = b then lexLt as_ bs else decide (a < b)

/-- Insert into an ascending list (worker for `sortStrs`). -/
def insSorted (x : Str) : List Str → List Str
  | [] => [x]
  | y :: ys => if lexLt y x then y :: insSorted x ys else x :: y :: ys

/-- Python `sorted` on a list of strings (ascending; equal strings are
indistinguishable, so stability is irrelevant). -/
def sortStrs : List Str → List Str
  | [] => []
  | x :: xs => insSorted x (sortStrs xs)

/-- The Python idiom `if ss not in sortedSeqinfo: sortedSeqinfo.append(ss)`
(membership by structural equality, as for namedtuples). -/
def condAppend (a : List SeriesRec) (ss : SeriesRec) : List SeriesRec :=
  if ss ∈ a then a else a ++ [ss]

/-- One iteration of the `for dt in sorted(dateTimes)` loop of
`sort_seqinfo_by_series_date_time`: select the series with this timestamp,
append them sorted by `series_uid` (the sorted uid list keeps duplicates),
then conditionally append the series of the group without a uid. -/
def dtGroupStep (seqinfo : List SeriesRec) (acc : List SeriesRec) (dt : Str) :
    List SeriesRec :=
  let dTseries := seqinfo.filter
    (fun ss => ss.date ≠ [] ∧ ss.time ≠ [] ∧ ss.date ++ ss.time = dt)
  -- sort series with identical date and time by series_uid:
  let uids := sortStrs ((dTseries.filter
    (fun s => s.series_uid ≠ [])).map (fun s => s.series_uid))
  let acc1 := uids.foldl (fun a sid =>
    a ++ dTseries.filter (fun ss => ss.series_uid = sid)) acc
  -- Now, add the series which do not have series_uid:
  dTseries.foldl condAppend acc1

/-- `sort_seqinfo_by_series_date_time` from the source: sorts the `seqinfo`
list by concatenated acquisition date and time, breaking ties by
`series_uid`, then appends the series without both date and time.  The inner
`set(...)` becomes `dedup` (the subsequent sort makes the set's iteration
order irrelevant). -/
def sort_seqinfo_by_series_date_time (seqinfo : List SeriesRec) : List SeriesRec :=
  let dateTimes : List Str :=
    sortStrs (((seqinfo.filter (fun s => s.date ≠ [] ∧ s.time ≠ [])).map
      (fun s => s.date ++ s.time)).dedup)
  let phase1 := dateTimes.foldl (dtGroupStep seqinfo) []
  -- Now, add the series which do not have date or time:
  seqinfo.foldl condAppend phase1

/-!
## Key synthesis

`create_key(subdir, file_suffix, outtype)` builds the tuple
`(template, outtype, annotation_classes)` with
`template = os.path.join('', "{bids_subject_session_dir}", subdir,
"{bids_subject_session_prefix}_" + file_suffix)`.  Braces are written with
`\x7b`/`\x7d` escapes.  `annotation_classes` is always `None` in this file.
-/

/-- The template string built by `create_key` (the `os.path.join` of the
source, whose empty `prefix` argument contributes nothing). -/
def joinTemplate (subdir suffix : Str) : Str :=
  ("\x7bbids_subject_session_dir\x7d/").data ++ subdir ++
    ("/\x7bbids_subject_session_prefix\x7d_").data ++ suffix

/-- `create_key` from the source; `none` models the `ValueError` raised on an
empty `subdir`. -/
def create_key (subdir suffix : Str) (outtype : List Str) : Option KeyT :=
  if subdir = [] then none
  else some ⟨joinTemplate subdir suffix, outtype, none⟩

/-- The default `outtype` tuple `('nii.gz', 'dicom')`. -/
def niftiDicom : List Str := [("nii.gz").data, ("dicom").data]

/-- The DICOM-only `outtype` tuple `('dicom',)`. -/
def dicomOnly : List Str := [("dicom").data]

/-- Helper: a static key with the default outtype. -/
def mkKey (subdir suffix : String) : KeyT :=
  ⟨joinTemplate subdir.data suffix.data, niftiDicom, none⟩

/-- Helper: a static key with DICOM-only outtype. -/
def mkKeyD (subdir suffix : String) : KeyT :=
  ⟨joinTemplate subdir.data suffix.data, dicomOnly, none⟩

def t1_key : KeyT := mkKey "anat" "acq-\x7bacq\x7d_run-\x7bitem:02d\x7d_T1w"
def t2_key : KeyT := mkKey "anat" "acq-\x7bacq\x7d_run-\x7bitem:02d\x7d_T2w"
def inplaneT1_key : KeyT := mkKey "anat" "run-\x7bitem:02d\x7d_inplaneT1"
def pd_bias_body_key : KeyT := mkKey "anat" "acq-biasBody_run-\x7bitem:02d\x7d_PD"
def pd_bias_receive_key : KeyT := mkKey "anat" "acq-biasReceive_run-\x7bitem:02d\x7d_PD"
def ir_key : KeyT := mkKey "anat" "inv-\x7bitem:02d\x7d_IRT1"
def variable_fa_key : KeyT := mkKey "anat" "flip-\x7bitem:02d\x7d_VFA"
def dwi_key : KeyT := mkKey "dwi" "acq-\x7bacq\x7d_run-\x7bitem:02d\x7d_dwi"
def dwi_sbref_key : KeyT := mkKey "dwi" "acq-\x7bacq\x7d_run-\x7bitem:02d\x7d_sbref"
def fmap_gre_mag_key : KeyT := mkKey "fmap" "acq-GRE_run-\x7bitem:02d\x7d_magnitude"
def fmap_gre_phase_key : KeyT := mkKey "fmap" "acq-GRE_run-\x7bitem:02d\x7d_phasediff"
def t2_scout_key : KeyT := mkKeyD "anat" "acq-Scout_run-\x7bitem:02d\x7d_T2w"
def screen_save_key : KeyT := mkKeyD "misc" "run-\x7bitem:02d\x7d_screensave"

/-!
## Cleanup pass
-/

/-- The generic run placeholder `'_run-{item:02d}'`. -/
def runPh : Str := ("_run-\x7bitem:02d\x7d").data

/-- The hard-coded first-run literal `'_run-01'`. -/
def run01s : Str := ("_run-01").data

/-- The hard-coded second-run literal `'_run-02'`. -/
def run02s : Str := ("_run-02").data

/-- Python `k[0]` on a dictionary key: the template of a tuple key, the
first character of a string key; `none` models the `IndexError` on the empty
string. -/
def keyHead : PKey → Option Str
  | PKey.kt k => some k.template
  | PKey.ks [] => none
  | PKey.ks (c :: _) => some [c]

/-- `new_k = list(k); new_k[0] = t'; tuple(new_k)` on a tuple key.  (For a
string key this spot is unreachable in `clean_up_step`: its guards require a
multi-character substring of the single-character `k[0]`.) -/
def setTemplate : PKey → Str → PKey
  | PKey.kt k, t' => PKey.kt ⟨t', k.outtype, k.ann⟩
  | PKey.ks _, t' => PKey.ks t'

/-- Python `[kk[0] for kk in info.keys()]`; `none` models the `IndexError`
raised if any key is the empty string. -/
def allTemplates (m : PMap) : Option (List Str) :=
  (m.map (fun e => e.1)).mapM keyHead

/-- The body of the `for k in orig_keys` loop of
`clean_up_unneeded_tags_from_info`, for one key `k`.  `none` models the
`KeyError`/`IndexError` exceptions. -/
def clean_up_step (info : PMap) (k : PKey) : Option PMap :=
  match pyLookup info k, keyHead k with
  | some v, some t0 =>
      if v.length = 1 ∧ containsSub t0 runPh then
        -- For entries in which run number is not hard-coded:
        some (pySet (pyRemove info k) (setTemplate k (replaceAll t0 runPh [])) v)
      else if containsSub t0 run01s then
        -- If "_run-01" is hardcoded, check for a corresponding "_run-02":
        match allTemplates info with
        | some ts =>
            if replaceAll t0 run01s run02s ∈ ts then some info
            else some (pySet (pyRemove info k)
                         (setTemplate k (replaceAll t0 run01s [])) v)
        | none => none
      else some info
  | _, _ => none

/-- `clean_up_unneeded_tags_from_info` from the source: iterates the loop
body over a snapshot of the original keys. -/
def clean_up_unneeded_tags_from_info (info : PMap) : Option PMap :=
  (info.map (fun e => e.1)).foldlM clean_up_step info

/-- Does the template contain the generic run placeholder? -/
def hasP (t : Str) : Bool := containsSub t runPh

/-- Does the template contain the hard-coded `'_run-01'` literal? -/
def hasQ (t : Str) : Bool := containsSub t run01s

/-- Erase the generic run placeholder (branch 1 of the cleanup rewrite). -/
def eraseP (t : Str) : Str := replaceAll t runPh []

/-- Erase the hard-coded `'_run-01'` literal (branch 2 of the rewrite). -/
def eraseQ (t : Str) : Str := replaceAll t run01s []

/-- The sibling template probed by branch 2. -/
def toR2 (t : Str) : Str := replaceAll t run01s run02s

/-- A template is *tame* when erasing whichever run marker it contains, or
substituting the second-run literal for the first, leaves a template
containing neither run marker.  Every template the heuristic actually builds
is tame; a template mixing the placeholder with a hard-coded `'_run-01'`
(the idempotence counterexample) is not. -/
def tameT (t : Str) : Bool :=
  (!hasP t || (!hasP (eraseP t) && !hasQ (eraseP t))) &&
  (!hasQ t || (!hasP (eraseQ t) && !hasQ (eraseQ t) &&
               !hasP (toR2 t) && !hasQ (toR2 t)))

/-- Every key of the map is a tuple key with a tame template. -/
def tameMap (m : PMap) : Bool :=
  m.all (fun e => match e.1 with
    | PKey.kt k => tameT k.template
    | PKey.ks _ => false)

/-- Some key of the map has `t` as its Python `k[0]` head. -/
def tmplMem (m : PMap) (t : Str) : Prop :=
  ∃ k ∈ m.map Prod.fst, keyHead k = some t

/-- The entry fires neither cleanup branch: not a single-assignment
placeholder key, and any hard-coded `'_run-01'` key has its `'_run-02'`
sibling present. -/
def NFEv (info : PMap) (e : PKey × List Asg) : Prop :=
  ∀ kt0 : KeyT, e.1 = PKey.kt kt0 →
    ¬(e.2.length = 1 ∧ containsSub kt0.template runPh = true) ∧
    (containsSub kt0.template run01s = true →
      tmplMem info (toR2 kt0.template))

/-- Invariant of the cleanup pass over a tame map: every key is a tuple key
with a tame template, and is either one of the original keys (`okl`) or a
rewritten key whose template carries no run marker. -/
def KeysOK (okl : List PKey) (m : PMap) : Prop :=
  ∀ k ∈ m.map Prod.fst, ∃ kt0, k = PKey.kt kt0 ∧ tameT kt0.template = true ∧
    (k ∈ okl ∨ (hasP kt0.template = false ∧ hasQ kt0.template = false))

/-!
## Classification cascade (`infotodict`)
-/

/-- Python `str(n)` for a natural number. -/
def natStr (n : Nat) : Str := Nat.toDigits 10 n

/-- Python `'%02d' % n`. -/
def pad2 (n : Nat) : Str := if n < 10 then '0' :: natStr n else natStr n

/-- A dynamically synthesized key (`create_key(subdir, suffix)` with the
default outtype unless stated otherwise). -/
def dynKey (subdir : String) (suffix : Str) (out : List Str) : KeyT :=
  ⟨joinTemplate subdir.data suffix, out, none⟩

/-- Modelled from the spec: `t1_dicom` is a free name in the source (rule 1's
DICOM-only duplicate-preserving anatomical category, spec §4.3 rule 1); it is
not defined anywhere in the repository.  Note it is absent from the initial
`info` dictionary, so `info[t1_dicom].append` raises `KeyError`. -/
def t1_dicom_key : KeyT := mkKeyD "anat" "acq-\x7bacq\x7d_run-\x7bitem:02d\x7d_T1w"

/-- Modelled from the spec: `t2_dicom`, the DICOM-only duplicate-preserving
T2w category (spec §4.3 rules 5-6); also absent from the initial `info`. -/
def t2_dicom_key : KeyT := mkKeyD "anat" "acq-\x7bacq\x7d_run-\x7bitem:02d\x7d_T2w"

/-- Modelled from the spec: `another_series_has_identical_start_time` is a
free name in the source; per spec §4.3 rule 1 it holds when "a sibling record
shares its exact acquisition timestamp". -/
def another_series_has_identical_start_time
    (seqinfo : List SeriesRec) (idx : Nat) : Bool :=
  match seqinfo.get? idx with
  | none => false
  | some s =>
      seqinfo.enum.any (fun p =>
        p.1 != idx && p.2.date == s.date && p.2.time == s.time)

/-- Modelled from the spec: `previous_series_is_sbref` is a free name in the
source; per spec §4.3 rule 13 it holds when "the preceding record is a
reference/calibration scan", i.e. its description carries the reference-scan
suffix used by rule 11's exclusion. -/
def previous_series_is_sbref (seqinfo : List SeriesRec) (idx : Nat) : Bool :=
  match idx, seqinfo.get? (idx - 1) with
  | 0, _ => false
  | _ + 1, none => false
  | _ + 1, some p => endsWithStr (lowerStr p.series_description) (("_sbref").data)

/-- `prot_name = s.protocol_name.lower()`. -/
def protName (s : SeriesRec) : Str := lowerStr s.protocol_name

/-- Rule 1 guard: high resolution T1w. -/
def ruleT1HighresP (s : SeriesRec) : Bool :=
  s.dim4 == 1 && containsSub s.sequence_name (("fl").data) &&
    (containsSub (protName s) (("t1").data) ||
     (containsSub (protName s) (("mp").data) &&
      containsSub (protName s) (("rage").data)) ||
     containsSub (protName s) (("mpr").data))

/-- Rule 2 guard: high-res inplane. -/
def ruleInplaneP (s : SeriesRec) : Bool :=
  s.dim4 == 1 && containsSub s.sequence_name (("efgre3d").data) &&
    containsSub (lowerStr s.series_description) (("inplane").data)

/-- Rule 3 guard: FSE T1w. -/
def ruleFseT1P (s : SeriesRec) : Bool :=
  s.dim4 == 1 && containsSub (protName s) (("t1").data) &&
    containsSub s.sequence_name (("tse").data)

/-- Rule 4 guard: T2w scout. -/
def ruleScoutP (s : SeriesRec) : Bool :=
  s.sequence_name == ("fgre").data

/-- Rule 5 guard: standard high-res T2w. -/
def ruleT2P (s : SeriesRec) : Bool :=
  s.dim4 == 1 &&
    (containsSub s.protocol_name (("T2").data) ||
     containsSub (protName s) (("tse").data) ||
     containsSub (protName s) (("space").data) ||
     containsSub (protName s) (("spc").data))

/-- Rule 6 guard: fast spin-echo localizer (`haste`). -/
def ruleHasteP (s : SeriesRec) : Bool :=
  s.dim4 == 1 && containsSub s.sequence_name (("h2d1").data)

/-- Rule 7 guard: PD-weighted BIAS images. -/
def rulePdBiasP (s : SeriesRec) : Bool :=
  containsSub s.series_description (("ASSET calibration").data) &&
    containsSub s.sequence_name (("efgre3d").data)

/-- Rule 8 guard: inversion recovery. -/
def ruleIrP (s : SeriesRec) : Bool :=
  containsSub s.sequence_name (("cni_ir_epi").data)

/-- Rule 9 guard: variable flip angle. -/
def ruleVfaP (s : SeriesRec) : Bool :=
  containsSub s.sequence_name (("cni_3dgrass").data) &&
    containsSub s.series_description (("deg").data)

/-- Rule 10 guard: functional time series. -/
def ruleFuncP (s : SeriesRec) : Bool :=
  decide (4 ≤ s.dim4) &&
    (containsSub s.sequence_name (("cni_epi").data) ||
     containsSub s.sequence_name (("muxarcepi").data)) &&
    !(s.image_type.contains (("DERIVED").data))

/-- Rule 11 guard: spin-echo distortion map (magnitude). -/
def ruleSeFmapP (s : SeriesRec) : Bool :=
  decide (s.dim4 ≤ 3) && containsSub s.sequence_name (("epse2d").data) &&
    s.image_type.contains (("M").data) &&
    (containsSub (protName s) (("dist").data) ||
     containsSub (protName s) (("map").data) ||
     containsSub (protName s) (("field").data)) &&
    !(endsWithStr (lowerStr s.series_description) (("_sbref").data))

/-- Rule 12 guard: GRE field map. -/
def ruleGreFmapP (s : SeriesRec) : Bool :=
  containsSub s.sequence_name (("fm2d").data) &&
    (containsSub (protName s) (("fieldmap").data) ||
     containsSub (protName s) (("field_map").data))

/-- Rule 13 guard: Siemens product diffusion sequence. -/
def ruleDwiP (s : SeriesRec) : Bool :=
  containsSub s.sequence_name (("ep_b").data)

/-- Rule 14 guard: operator screen save. -/
def ruleScreenP (s : SeriesRec) : Bool :=
  s.image_type.contains (("DERIVED").data) &&
    s.image_type.contains (("SCREEN SAVE").data)

/-- The first top-level `if`/`elif` chain of the loop body (T1w rules 1-3).
`direction` is a free name in the source, modelled from the spec (§4.2
"Direction extraction") as a parameter.  `none` models an uncaught
exception. -/
def chainA (direction : Str) (seqinfo : List SeriesRec) (idx : Nat)
    (s : SeriesRec) (info : PMap) : Option PMap :=
  if ruleT1HighresP s then
    let acq := ("highres").data ++ direction
    if !(s.image_type.contains (("NORM").data)) &&
        another_series_has_identical_start_time seqinfo idx then
      dictAppend info (PKey.kt t1_dicom_key) ⟨s.series_id, some acq⟩
    else
      dictAppend info (PKey.kt t1_key) ⟨s.series_id, some acq⟩
  else if ruleInplaneP s then
    dictAppend info (PKey.kt inplaneT1_key) ⟨s.series_id, none⟩
  else if ruleFseT1P s then
    dictAppend info (PKey.kt t1_key) ⟨s.series_id, some ((("fse").data) ++ direction)⟩
  else some info

/-- The run-number table for functional tasks. -/
abbrev RNs := List (Str × Nat)

/-- `run_numbers.get(task)`. -/
def rnLookup (rn : RNs) (t : Str) : Option Nat :=
  (rn.find? (fun e => e.1 = t)).map (fun e => e.2)

/-- `run_numbers[task] = n`. -/
def rnSet (rn : RNs) (t : Str) (n : Nat) : RNs :=
  if rn.any (fun e => e.1 = t) then
    rn.map (fun e => if e.1 = t then (t, n) else e)
  else rn ++ [(t, n)]

/-- The new run number for `task`: Python
`if run_numbers.get(task): run_numbers[task] += 1 else: run_numbers[task] = 1`
(note `0` and a missing entry are both falsy). -/
def nextRun (rn : RNs) (t : Str) : Nat :=
  match rnLookup rn t with
  | some n => if n ≠ 0 then n + 1 else 1
  | none => 1

/-- `direction or 'normal'`. -/
def dirOrNormal (direction : Str) : Str :=
  if direction = [] then ("normal").data else direction

/-- The second top-level `if`/`elif` chain of the loop body (rules 4-14:
scout, T2w, PD, IR, VFA, functional, field maps, diffusion, screen save).
`none` models an uncaught exception (`KeyError`/`IndexError` or the
`IndexError` inside `extract_task_name`). -/
def chainB (direction : Str) (seqinfo : List SeriesRec) (idx : Nat)
    (s : SeriesRec) (info : PMap) (run_numbers : RNs) : Option (PMap × RNs) :=
  if ruleScoutP s then
    (dictAppend info (PKey.kt t2_scout_key) ⟨s.series_id, none⟩).map
      (fun m => (m, run_numbers))
  else if ruleT2P s then
    let acq := ("highres").data ++ direction
    if !(s.image_type.contains (("NORM").data)) &&
        another_series_has_identical_start_time seqinfo idx then
      (dictAppend info (PKey.kt t2_dicom_key) ⟨s.series_id, some acq⟩).map
        (fun m => (m, run_numbers))
    else
      (dictAppend info (PKey.kt t2_key) ⟨s.series_id, some acq⟩).map
        (fun m => (m, run_numbers))
  else if ruleHasteP s then
    (dictAppend info (PKey.kt t2_dicom_key) ⟨s.series_id, some (("haste").data)⟩).map
      (fun m => (m, run_numbers))
  else if rulePdBiasP s then
    (dictAppend info (PKey.kt pd_bias_receive_key) ⟨s.series_id, none⟩).map
      (fun m => (m, run_numbers))
  else if ruleIrP s then
    some (addS s.series_id ir_key info [], run_numbers)
  else if ruleVfaP s then
    some (addS s.series_id variable_fa_key info [], run_numbers)
  else if ruleFuncP s then
    match extract_task_name s.series_description with
    | none => none
    | some task =>
        let n := nextRun run_numbers task
        let rn' := rnSet run_numbers task n
        let mykey := dynKey "func"
          ((("task-").data) ++ task ++ (("_run-").data) ++ pad2 n ++ (("_bold").data))
          niftiDicom
        some (addS s.series_id mykey info [], rn')
  else if ruleSeFmapP s then
    let run_dir := dirOrNormal direction
    match seqinfo.get? (idx + 1) with
    | some nxt =>
        if nxt.protocol_name == s.protocol_name &&
            nxt.image_type.contains (("P").data) then
          -- we have a magnitude/phase pair:
          let kmag := dynKey "fmap"
            ((("acq-fMRI_rec-magnitude_dir-").data) ++ run_dir ++
              (("_run-\x7bitem:02d\x7d_epi").data)) niftiDicom
          let kpha := dynKey "fmap"
            ((("acq-fMRI_rec-phase_dir-").data) ++ run_dir ++
              (("_run-\x7bitem:02d\x7d_epi").data)) niftiDicom
          let info1 := addS s.series_id kmag info []
          some (addS nxt.series_id kpha info1 [], run_numbers)
        else
          some (addS s.series_id
            (dynKey "fmap" ((("acq-fMRI_dir-").data) ++ run_dir ++
              (("_run-\x7bitem:02d\x7d_epi").data)) niftiDicom) info [], run_numbers)
    | none =>
        some (addS s.series_id
          (dynKey "fmap" ((("acq-fMRI_dir-").data) ++ run_dir ++
            (("_run-\x7bitem:02d\x7d_epi").data)) niftiDicom) info [], run_numbers)
  else if ruleGreFmapP s then
    match s.image_type.get? 2 with
    | none => none  -- `s.image_type[2]` raises IndexError
    | some flag =>
        if flag == ("M").data then
          (dictAppend info (PKey.kt fmap_gre_mag_key) ⟨s.series_id, none⟩).map
            (fun m => (m, run_numbers))
        else if flag == ("P").data then
          (dictAppend info (PKey.kt fmap_gre_phase_key) ⟨s.series_id, none⟩).map
            (fun m => (m, run_numbers))
        else some (info, run_numbers)
  else if ruleDwiP s then
    if decide (5 ≤ s.dim4) then
      -- this is a standard diffusion acquisition
      let acq := natStr s.dim4 ++ ("vols").data
      match dictAppend info (PKey.kt dwi_key) ⟨s.series_id, some acq⟩ with
      | none => none
      | some info1 =>
          if previous_series_is_sbref seqinfo idx &&
              (match seqinfo.get? (idx - 1) with
               | some p => containsSub p.sequence_name (("epse2d").data)
               | none => false) then
            match seqinfo.get? (idx - 1) with
            | some p =>
                (dictAppend info1 (PKey.kt dwi_sbref_key)
                  ⟨p.series_id, some acq⟩).map (fun m => (m, run_numbers))
            | none => none
          else some (info1, run_numbers)
    else
      -- this is a fmap for diffusion
      let run_dir := dirOrNormal direction
      let info1 := addS s.series_id
        (dynKey "fmap" ((("acq-dwi_dir-").data) ++ run_dir ++
          (("_run-\x7bitem:02d\x7d_epi").data)) niftiDicom) info []
      if previous_series_is_sbref seqinfo idx then
        match seqinfo.get? (idx - 1) with
        | some p =>
            some (addS p.series_id
              (dynKey "fmap" ((("acq-dwi_dir-").data) ++ run_dir ++
                (("_run-\x7bitem:02d\x7d_sbref").data)) dicomOnly) info1 [],
              run_numbers)
        | none => none
      else some (info1, run_numbers)
  else if ruleScreenP s then
    (dictAppend info (PKey.kt screen_save_key) ⟨s.series_id, none⟩).map
      (fun m => (m, run_numbers))
  else some (info, run_numbers)

/-- The initial `info` dictionary of `infotodict`. -/
def initInfo : PMap :=
  [(PKey.kt t1_key, []), (PKey.kt t2_key, []), (PKey.kt inplaneT1_key, []),
   (PKey.kt pd_bias_body_key, []), (PKey.kt pd_bias_receive_key, []),
   (PKey.kt dwi_key, []), (PKey.kt dwi_sbref_key, []),
   (PKey.kt fmap_gre_mag_key, []), (PKey.kt fmap_gre_phase_key, []),
   (PKey.kt t2_scout_key, []), (PKey.kt screen_save_key, [])]

/-- One iteration of the `for idx, s in enumerate(seqinfo)` loop: the two
`if`/`elif` chains run in sequence on the same record. -/
def infoStep (direction : Str) (ss : List SeriesRec) (st : PMap × RNs)
    (p : Nat × SeriesRec) : Option (PMap × RNs) :=
  match chainA direction ss p.1 p.2 st.1 with
  | none => none
  | some info1 => chainB direction ss p.1 p.2 info1 st.2

/-- `infotodict` from the source: sort, run both `if`/`elif` chains per
record in order, then run the cleanup pass.  `direction` is the free name
modelled from the spec as a parameter; `none` models an uncaught
exception. -/
def infotodict (seqinfo : List SeriesRec) (direction : Str) : Option PMap :=
  let ss := sort_seqinfo_by_series_date_time seqinfo
  (ss.enum.foldlM (infoStep direction ss) (initInfo, ([] : RNs))).bind
    (fun st => clean_up_unneeded_tags_from_info st.1)

/-- How many entries (categories) of the map mention `sid` among their
assignments. -/
def entriesWithItem (m : PMap) (sid : Str) : Nat :=
  (m.filter (fun e => e.2.any (fun a => a.item == sid))).length

/-- Does some entry whose key template contains `tsub` carry an assignment
for `sid`? -/
def mapHasItemUnder (m : PMap) (tsub : Str) (sid : Str) : Bool :=
  m.any (fun e =>
    (match keyHead e.1 with
     | some t => containsSub t tsub
     | none => false) &&
    e.2.any (fun a => a.item == sid))

/-- Does some entry carry the assignment `{'item': sid, 'acq': acq}`? -/
def mapHasItemAcq (m : PMap) (sid acq : Str) : Bool :=
  m.any (fun e => e.2.any (fun a => a.item == sid && a.acq == some acq))

/-- How many assignments of the whole map carry `sid` as their item. -/
def countItem (m : PMap) (sid : Str) : Nat :=
  (m.map (fun e => (e.2.filter (fun a => a.item = sid)).length)).sum

/-- Is this dictionary key a `create_key` tuple (as opposed to a string)? -/
def isKt : PKey → Bool
  | PKey.ks _ => false
  | PKey.kt _ => true

/-- The keys of the initial `info` dictionary. -/
def initKeys : List PKey := initInfo.map Prod.fst

/-- The three invariants of the classification map maintained by the loop of
`infotodict`: the initial static keys stay present, every key is a tuple,
and the keys are distinct. -/
def InvM (m : PMap) : Prop :=
  (∀ k ∈ initKeys, k ∈ m.map Prod.fst) ∧
  (∀ k ∈ m.map Prod.fst, isKt k = true) ∧
  (m.map Prod.fst).Nodup

/-- The safety conditions under which the loop body of `infotodict` cannot
raise for the record at index `idx` of the (sorted) list: a GRE-field-map
record carries at least three `image_type` flags; a functional record's
description yields a task name without error; a T1w/T2w record is either
normalized or shares its timestamp with no other series (so the broken
`t1_dicom`/`t2_dicom` redirects are not taken); and the `haste` rule (whose
`t2_dicom` category is absent from the initial map) does not match. -/
abbrev recSafe (ss : List SeriesRec) (idx : Nat) (s : SeriesRec) : Prop :=
  (ruleGreFmapP s = true → 3 ≤ s.image_type.length) ∧
  (ruleFuncP s = true → (extract_task_name s.series_description).isSome = true) ∧
  (ruleT1HighresP s = true →
    s.image_type.contains (("NORM").data) = true ∨
    another_series_has_identical_start_time ss idx = false) ∧
  (ruleT2P s = true →
    s.image_type.contains (("NORM").data) = true ∨
    another_series_has_identical_start_time ss idx = false) ∧
  ruleHasteP s = false

/-!
## Concrete witness data
-/

/-- Concrete record for the C2 witness: matches both rule 1 and rule 5. -/
def wRec : SeriesRec :=
  ⟨("s1").data, [], [], [], ("t1 spc").data, [], ("fl").data, [("NORM").data], 1⟩

/-- Concrete two-key map for the C2 witness. -/
def wInfo : PMap := [(PKey.kt t1_key, []), (PKey.kt t2_key, [])]

/-- `wInfo` after the first chain processed `wRec`. -/
def wInfo1 : PMap :=
  [(PKey.kt t1_key, [⟨("s1").data, some (("highres").data)⟩]),
   (PKey.kt t2_key, [])]

/-- `wInfo1` (with the run-number table) after the second chain processed
`wRec`. -/
def wOut : PMap × RNs :=
  ([(PKey.kt t1_key, [⟨("s1").data, some (("highres").data)⟩]),
    (PKey.kt t2_key, [⟨("s1").data, some (("highres").data)⟩])], [])

/-- Concrete benign record for the C1 witness (a scout series). -/
def recScoutW : SeriesRec :=
  ⟨("s0").data, [], [], [], ("loc").data, [], ("fgre").data, [], 1⟩

/-- Concrete tame two-key map for the C3 witness. -/
def wTameM : PMap :=
  [(PKey.kt ⟨("a_run-\x7bitem:02d\x7d_T1w").data, niftiDicom, none⟩,
     [⟨("x").data, none⟩]),
   (PKey.kt ⟨("b_run-01_bold").data, niftiDicom, none⟩,
     [⟨("x").data, none⟩, ⟨("y").data, none⟩])]

/-!
## Theorems
-/

/-- The static keys are exactly what `create_key` produces. -/
theorem create_key_t1 :
    create_key (("anat").data) (("acq-\x7bacq\x7d_run-\x7bitem:02d\x7d_T1w").data)
      niftiDicom = some t1_key := rfl

/-- The DICOM-only scout key matches its `create_key` call. -/
theorem create_key_t2_scout :
    create_key (("anat").data) (("acq-Scout_run-\x7bitem:02d\x7d_T2w").data)
      dicomOnly = some t2_scout_key := rfl

/-- **C9.**  `extract_task_name` returns the specified values on the three
specified inputs: `"REST bold" ↦ "rest"`, `"custom_task-nback_acq1" ↦
"nback"`, and `"unlabeled scan" ↦ "TASK"` (each returned normally). -/
theorem extract_task_name_specified_values :
    extract_task_name (("REST bold").data) = some (("rest").data) ∧
    extract_task_name (("custom_task-nback_acq1").data) = some (("nback").data) ∧
    extract_task_name (("unlabeled scan").data) = some (("TASK").data) := by
  decide

/-- **C8.**  At the failing input (empty key, empty dictionary),
`add_series_to_info_dict` does not raise and does not signal a defect: it
returns normally with the class object `Exception` as its value (the source
says `return Exception`, not `raise Exception`) and leaves the dictionary
untouched; the same happens for a missing dictionary. -/
theorem add_series_empty_key_returns_exception_class :
    add_series_to_info_dict (("s1").data) (PKey.ks []) (some []) [] =
      (PyRet.retExceptionClass, some []) ∧
    add_series_to_info_dict (("s1").data) (PKey.ks []) none [] =
      (PyRet.retExceptionClass, none) := by
  decide

/-- **C10.**  At the failing input — two distinct records sharing date, time
and `series_uid` — `sort_seqinfo_by_series_date_time` outputs each record
twice (the sorted `series_uid` list keeps duplicates, and the inner loop
appends every matching record once per duplicate), so the output is not a
permutation of the input. -/
theorem sort_duplicates_same_uid_records :
    sort_seqinfo_by_series_date_time
      [⟨("a").data, ("20200101").data, ("1200").data, ("U").data, [], [], [], [], 0⟩,
       ⟨("b").data, ("20200101").data, ("1200").data, ("U").data, [], [], [], [], 0⟩] =
      [⟨("a").data, ("20200101").data, ("1200").data, ("U").data, [], [], [], [], 0⟩,
       ⟨("b").data, ("20200101").data, ("1200").data, ("U").data, [], [], [], [], 0⟩,
       ⟨("a").data, ("20200101").data, ("1200").data, ("U").data, [], [], [], [], 0⟩,
       ⟨("b").data, ("20200101").data, ("1200").data, ("U").data, [], [], [], [], 0⟩] := by
  decide

/-- **C1, counterexample.**  A record with `image_type` shorter than 3 that
matches the GRE-field-map rule makes `infotodict` raise `IndexError`
(`s.image_type[2]`), refuting "never raises on imageType sequences shorter
than 3". -/
theorem infotodict_raises_on_short_image_type :
    infotodict [⟨("s1").data, [], [], [], ("fieldmap").data, [],
      ("fm2d").data, [], 2⟩] [] = none := by
  decide

/-- **C2, counterexample.**  A single record matching both the T1-like chain
(rule 1) and the independently dispatched T2-like chain (rule 5) is assigned
to two different categories: its series id appears in two entries of the
final map. -/
theorem infotodict_double_assignment :
    (infotodict [⟨("s1").data, [], [], [], ("t1 spc").data, [],
      ("fl").data, [("NORM").data], 1⟩] []).map
      (fun m => entriesWithItem m (("s1").data)) = some 2 := by
  decide

/-- **C4, counterexample.**  `extract_task_name` is neither total nor
non-empty-valued: on `"xtask"` it raises `IndexError` (the text after the
`task` marker is empty), and on `"mytask-"` it returns the empty string. -/
theorem extract_task_name_not_total :
    extract_task_name (("xtask").data) = none ∧
    extract_task_name (("mytask-").data) = some [] := by
  decide

/-- **C5, counterexample.**  A key with the hard-coded `'_run-01'` literal
and **two** assignments is rewritten by the cleanup pass (the `elif` branch
has no length-1 guard), refuting "every key whose assignment sequence has
length other than one is left unchanged". -/
theorem cleanup_rewrites_two_element_key :
    clean_up_unneeded_tags_from_info
      [(PKey.kt ⟨("x_run-01").data, niftiDicom, none⟩,
        [⟨("a").data, none⟩, ⟨("b").data, none⟩])] =
      some [(PKey.kt ⟨("x").data, niftiDicom, none⟩,
        [⟨("a").data, none⟩, ⟨("b").data, none⟩])] := by
  decide

/-- **C3, counterexample.**  Cleanup is not idempotent: a single-assignment
key whose template contains both the run placeholder and the hard-coded
`'_run-01'` literal is rewritten by the first pass (erasing the placeholder)
and again by the second pass (erasing `'_run-01'`). -/
theorem cleanup_not_idempotent :
    clean_up_unneeded_tags_from_info
        [(PKey.kt ⟨("a_run-01_run-\x7bitem:02d\x7d").data, niftiDicom, none⟩,
          [⟨("x").data, none⟩])] =
      some [(PKey.kt ⟨("a_run-01").data, niftiDicom, none⟩, [⟨("x").data, none⟩])] ∧
    clean_up_unneeded_tags_from_info
        [(PKey.kt ⟨("a_run-01").data, niftiDicom, none⟩, [⟨("x").data, none⟩])] =
      some [(PKey.kt ⟨("a").data, niftiDicom, none⟩, [⟨("x").data, none⟩])] := by
  decide

/-- **C6, counterexample.**  In the sorter's output, a record with neither
date nor time (`r0`) precedes a record with a date but no time (`r1`): a
record with one temporal field does not participate in the timestamp phase,
so it shares the trailing section in input order. -/
theorem sort_no_temporal_before_date_only :
    sort_seqinfo_by_series_date_time
      [⟨("r0").data, [], [], [], [], [], [], [], 0⟩,
       ⟨("r1").data, ("20200101").data, [], [], [], [], [], [], 0⟩] =
    [⟨("r0").data, [], [], [], [], [], [], [], 0⟩,
     ⟨("r1").data, ("20200101").data, [], [], [], [], [], [], 0⟩] := by
  decide

/-- **C7, counterexample.**  A diffusion record with volume count exactly 5
(at the threshold) is registered as a **standard** diffusion acquisition with
label `"5vols"` — not as a diffusion field map, refuting "at or below 5 →
field map". -/
theorem dwi_threshold_at_five_is_standard :
    (infotodict [⟨("s7").data, [], [], [], ("x").data, [],
      ("ep_b").data, [], 5⟩] []).map (fun m =>
        (mapHasItemAcq m (("s7").data) (("5vols").data),
         mapHasItemUnder m (("_dwi").data) (("s7").data),
         mapHasItemUnder m (("acq-dwi_dir-").data) (("s7").data))) =
      some (true, true, false) := by
  decide

/-- If some label of `l` occurs in `pn` and every label of `l` keeps a
non-empty stem after stripping `' bold'`, the known-task loop returns a
non-empty string. -/
theorem matchKnown_ne_nil_gen (pn : Str) :
    ∀ l : List Str,
      (∀ t ∈ l, (splitOnSub t ((" bold").data)).headD [] ≠ []) →
      (∃ t ∈ l, containsSub pn t = true) →
      matchKnown pn l ≠ [] := by
  intro l
  induction l with
  | nil => rintro _ ⟨t, ht, _⟩; exact absurd ht (List.not_mem_nil t)
  | cons t rest ih =>
      rintro hstem ⟨u, hu, hc⟩
      by_cases hct : containsSub pn t = true
      · simpa [matchKnown, hct] using hstem t (List.mem_cons_self t rest)
      · rcases List.mem_cons.mp hu with rfl | hu'
        · exact absurd hc hct
        · simpa [matchKnown, hct] using
            ih (fun x hx => hstem x (List.mem_cons_of_mem t hx)) ⟨u, hu', hc⟩

/-- The known-task loop returns either the empty string or the stripped stem
of some label of `l`. -/
theorem matchKnown_mem (pn : Str) :
    ∀ l : List Str,
      matchKnown pn l = [] ∨
      ∃ t ∈ l, matchKnown pn l = (splitOnSub t ((" bold").data)).headD [] := by
  intro l
  induction l with
  | nil => exact Or.inl rfl
  | cons t rest ih =>
      by_cases hct : containsSub pn t = true
      · exact Or.inr ⟨t, List.mem_cons_self t rest, by simp [matchKnown, hct]⟩
      · rcases ih with hnil | ⟨u, hu, heq⟩
        · exact Or.inl (by simp [matchKnown, hct, hnil])
        · exact Or.inr ⟨u, List.mem_cons_of_mem t hu,
            by simp [matchKnown, hct, heq]⟩

/-- **C4, amended.**  `extract_task_name` is a pure function of its argument
(it is a function); it raises only in the `task`-marker branch, and whenever
the lowered input contains a known task label or does not contain the
substring `'task'` at all, it returns normally with one of eleven fixed
strings (the stripped known-task stems after the `'lo' -> 'loc'` fix, or
`'TASK'`), which is in particular non-empty and purely alphanumeric. -/
theorem extract_task_name_alnum_of_known_or_no_task :
    ∀ s : Str,
      ((∃ t ∈ knownTasks, containsSub (lowerStr s) t = true) ∨
        containsSub (lowerStr s) (("task").data) = false) →
      ∃ r, extract_task_name s = some r ∧ r ∈ taskResults ∧ r ≠ [] ∧
        r.all (fun ch => ch.isAlphanum) = true := by
  have hne : ∀ r ∈ taskResults, r ≠ [] := by decide
  have halnum : ∀ r ∈ taskResults,
      r.all (fun ch => ch.isAlphanum) = true := by decide
  intro s h
  unfold extract_task_name
  cases hmk : matchKnown (lowerStr s) knownTasks with
  | nil =>
      have hnt : containsSub (lowerStr s) (("task").data) = false := by
        rcases h with ⟨t, ht, hc⟩ | hnt
        · exact absurd hmk (matchKnown_ne_nil_gen (lowerStr s) knownTasks
            (by decide) ⟨t, ht, hc⟩)
        · exact hnt
      have hm : ("TASK").data ∈ taskResults := by decide
      refine ⟨("TASK").data, ?_, hm, hne _ hm, halnum _ hm⟩
      simp [hmk, hnt]
  | cons c cs =>
      have hv : ∃ t ∈ knownTasks,
          c :: cs = (splitOnSub t ((" bold").data)).headD [] := by
        rcases matchKnown_mem (lowerStr s) knownTasks with hnil | ⟨t, ht, heq⟩
        · exact absurd (hmk.symm.trans hnil) (by simp)
        · exact ⟨t, ht, hmk.symm.trans heq⟩
      obtain ⟨t, ht, heq⟩ := hv
      have hall : ∀ u ∈ knownTasks,
          (if (splitOnSub u ((" bold").data)).headD [] = ("lo").data
            then ("loc").data
            else (splitOnSub u ((" bold").data)).headD []) ∈ taskResults := by
        decide
      have hfix : (if c :: cs = ("lo").data then ("loc").data else c :: cs) ∈
          taskResults := by
        rw [heq]
        exact hall t ht
      by_cases hlo : c :: cs = ("lo").data
      · rw [if_pos hlo] at hfix
        exact ⟨("loc").data, by simp [hmk, hlo], hfix, hne _ hfix, halnum _ hfix⟩
      · rw [if_neg hlo] at hfix
        exact ⟨c :: cs, by simp [hmk, hlo], hfix, hne _ hfix, halnum _ hfix⟩

/-- **C4, witness.** -/
theorem extract_task_name_alnum_witness :
    ((∃ t ∈ knownTasks, containsSub (lowerStr (("REST bold").data)) t = true) ∨
      containsSub (lowerStr (("REST bold").data)) (("task").data) = false) ∧
    ∃ r, extract_task_name (("REST bold").data) = some r ∧ r ∈ taskResults ∧
      r ≠ [] ∧ r.all (fun ch => ch.isAlphanum) = true :=
  ⟨Or.inl (by decide),
   extract_task_name_alnum_of_known_or_no_task (("REST bold").data)
     (Or.inl (by decide))⟩

/-- **C5, amended.**  In the cleanup loop body, only the generic-placeholder
rewrite is conditioned on having exactly one assignment: for a key failing
that first condition, the hard-coded `'_run-01'` rewrite fires for **any**
assignment-sequence length whenever no `'_run-02'` sibling template exists,
and a key satisfying neither condition is left unchanged. -/
theorem cleanup_step_conditions :
    ∀ (info : PMap) (k : KeyT) (v : List Asg),
      pyLookup info (PKey.kt k) = some v →
      ¬(v.length = 1 ∧ containsSub k.template runPh = true) →
      ∀ ts, allTemplates info = some ts →
        clean_up_step info (PKey.kt k) =
          if containsSub k.template run01s = true then
            (if replaceAll k.template run01s run02s ∈ ts then some info
             else some (pySet (pyRemove info (PKey.kt k))
                 (PKey.kt ⟨replaceAll k.template run01s [], k.outtype, k.ann⟩) v))
          else some info := by
  intro info k v hl h1 ts hts
  unfold clean_up_step
  rw [hl]
  simp only [keyHead]
  rw [if_neg h1]
  by_cases hq : containsSub k.template run01s = true
  · simp only [hq, if_true, hts, setTemplate]
  · simp [hq]

/-- **C5, witness.** -/
theorem cleanup_step_conditions_witness :
    (pyLookup [(PKey.kt ⟨("x_run-01").data, niftiDicom, none⟩,
        [⟨("a").data, none⟩, ⟨("b").data, none⟩])]
        (PKey.kt ⟨("x_run-01").data, niftiDicom, none⟩) =
        some [⟨("a").data, none⟩, ⟨("b").data, none⟩] ∧
      allTemplates [(PKey.kt ⟨("x_run-01").data, niftiDicom, none⟩,
        [⟨("a").data, none⟩, ⟨("b").data, none⟩])] = some [("x_run-01").data]) ∧
    clean_up_step
        [(PKey.kt ⟨("x_run-01").data, niftiDicom, none⟩,
          [⟨("a").data, none⟩, ⟨("b").data, none⟩])]
        (PKey.kt ⟨("x_run-01").data, niftiDicom, none⟩) =
      if containsSub (("x_run-01").data) run01s = true then
        (if replaceAll (("x_run-01").data) run01s run02s ∈ [("x_run-01").data] then
          some [(PKey.kt ⟨("x_run-01").data, niftiDicom, none⟩,
            [⟨("a").data, none⟩, ⟨("b").data, none⟩])]
         else some (pySet (pyRemove
             [(PKey.kt ⟨("x_run-01").data, niftiDicom, none⟩,
               [⟨("a").data, none⟩, ⟨("b").data, none⟩])]
             (PKey.kt ⟨("x_run-01").data, niftiDicom, none⟩))
           (PKey.kt ⟨replaceAll (("x_run-01").data) run01s [], niftiDicom, none⟩)
           [⟨("a").data, none⟩, ⟨("b").data, none⟩]))
      else some [(PKey.kt ⟨("x_run-01").data, niftiDicom, none⟩,
        [⟨("a").data, none⟩, ⟨("b").data, none⟩])] :=
  ⟨⟨by decide, by decide⟩,
   cleanup_step_conditions _ ⟨("x_run-01").data, niftiDicom, none⟩ _
     (by decide) (by decide) _ (by decide)⟩

/-- **C7, amended.**  For a record reaching the diffusion rule (`'ep_b'` in
the sequence name, rules 4-12 failing) with no preceding reference scan: a
volume count of **at least** 5 (not strictly above 5) registers a standard
diffusion acquisition with dynamic label `str(dim4) + 'vols'`, and a volume
count strictly below 5 registers a diffusion field map under the
direction-or-`'normal'` dynamic key. -/
theorem dwi_branches (d : Str) (ss : List SeriesRec) (idx : Nat)
    (s : SeriesRec) (info : PMap) (rn : RNs)
    (h4 : ruleScoutP s = false) (h5 : ruleT2P s = false)
    (h6 : ruleHasteP s = false) (h7 : rulePdBiasP s = false)
    (h8 : ruleIrP s = false) (h9 : ruleVfaP s = false)
    (h10 : ruleFuncP s = false) (h11 : ruleSeFmapP s = false)
    (h12 : ruleGreFmapP s = false) (h13 : ruleDwiP s = true)
    (hsb : previous_series_is_sbref ss idx = false) :
    chainB d ss idx s info rn =
      if 5 ≤ s.dim4 then
        (dictAppend info (PKey.kt dwi_key)
          ⟨s.series_id, some (natStr s.dim4 ++ ("vols").data)⟩).map
          (fun m => (m, rn))
      else
        some (addS s.series_id
          (dynKey "fmap" ((("acq-dwi_dir-").data) ++ dirOrNormal d ++
            (("_run-\x7bitem:02d\x7d_epi").data)) niftiDicom) info [], rn) := by
  unfold chainB
  simp only [h4, h5, h6, h7, h8, h9, h10, h11, h12, h13, hsb,
    Bool.false_eq_true, if_false, if_true, Bool.false_and, Bool.true_eq_false]
  by_cases hd : 5 ≤ s.dim4
  · simp only [hd, decide_True, if_true]
    cases dictAppend info (PKey.kt dwi_key)
        ⟨s.series_id, some (natStr s.dim4 ++ ("vols").data)⟩ <;> simp
  · simp [hd]

/-- **C7, witness.** -/
theorem dwi_branches_witness :
    (ruleScoutP ⟨("s7").data, [], [], [], ("x").data, [], ("ep_b").data, [], 5⟩ = false ∧
     ruleDwiP ⟨("s7").data, [], [], [], ("x").data, [], ("ep_b").data, [], 5⟩ = true) ∧
    chainB [] [⟨("s7").data, [], [], [], ("x").data, [], ("ep_b").data, [], 5⟩] 0
        ⟨("s7").data, [], [], [], ("x").data, [], ("ep_b").data, [], 5⟩
        [(PKey.kt dwi_key, [])] [] =
      if 5 ≤ (5 : Nat) then
        (dictAppend [(PKey.kt dwi_key, [])] (PKey.kt dwi_key)
          ⟨("s7").data, some (natStr 5 ++ ("vols").data)⟩).map
          (fun m => (m, ([] : RNs)))
      else
        some (addS (("s7").data)
          (dynKey "fmap" ((("acq-dwi_dir-").data) ++ dirOrNormal [] ++
            (("_run-\x7bitem:02d\x7d_epi").data)) niftiDicom)
          [(PKey.kt dwi_key, [])] [], ([] : RNs)) :=
  ⟨⟨by decide, by decide⟩,
   dwi_branches [] _ 0 _ _ [] (by decide) (by decide) (by decide) (by decide)
     (by decide) (by decide) (by decide) (by decide) (by decide) (by decide)
     (by decide)⟩

/-!
### Association-list infrastructure
-/

theorem pyLookup_mem {m : PMap} {k : PKey} {v : List Asg}
    (h : pyLookup m k = some v) : (k, v) ∈ m := by
  unfold pyLookup at h
  cases hf : m.find? (fun e => e.1 = k) with
  | none => rw [hf] at h; simp at h
  | some e =>
      rw [hf] at h
      simp only [Option.map_some', Option.some.injEq] at h
      have he1 : e.1 = k := by
        have := List.find?_some hf
        exact of_decide_eq_true this
      have hmem := List.mem_of_find?_eq_some hf
      have : e = (k, v) := Prod.ext he1 h
      exact this ▸ hmem

theorem hasKey_of_lookup {m : PMap} {k : PKey} {v : List Asg}
    (h : pyLookup m k = some v) : hasKey m k = true := by
  have hm := pyLookup_mem h
  simp only [hasKey, List.any_eq_true]
  exact ⟨(k, v), hm, by simp⟩

theorem not_hasKey_of_lookup_none {m : PMap} {k : PKey}
    (h : pyLookup m k = none) : hasKey m k = false := by
  unfold pyLookup at h
  cases hf : m.find? (fun e => e.1 = k) with
  | some e => rw [hf] at h; simp at h
  | none =>
      have := List.find?_eq_none.mp hf
      simp only [hasKey, List.any_eq_false]
      intro e he
      simpa using this e he

theorem hasKey_iff_mem_keys {m : PMap} {k : PKey} :
    hasKey m k = true ↔ k ∈ m.map Prod.fst := by
  simp [hasKey, List.any_eq_true, List.mem_map]

theorem map_entries_id {m : PMap} {k : PKey} {w : List Asg}
    (h : ∀ e ∈ m, e.1 ≠ k) :
    m.map (fun e => if e.1 = k then (k, w) else e) = m := by
  induction m with
  | nil => rfl
  | cons e rest ih =>
      have h1 : e.1 ≠ k := h e (List.mem_cons_self e rest)
      simp only [List.map_cons, if_neg h1]
      rw [ih (fun x hx => h x (List.mem_cons_of_mem e hx))]

theorem countItem_cons (e : PKey × List Asg) (m : PMap) (sid : Str) :
    countItem (e :: m) sid =
      (e.2.filter (fun a => a.item = sid)).length + countItem m sid := by
  simp [countItem]

theorem countItem_append (m m' : PMap) (sid : Str) :
    countItem (m ++ m') sid = countItem m sid + countItem m' sid := by
  simp [countItem]

theorem mapFst_pySet_hasKey {m : PMap} {k : PKey} {v : List Asg}
    (hk : hasKey m k = true) :
    (pySet m k v).map Prod.fst = m.map Prod.fst := by
  unfold pySet
  rw [if_pos hk, List.map_map]
  apply List.map_congr_left
  intro e _
  by_cases hek : e.1 = k <;> simp [hek]

theorem countItem_pySet {m : PMap} {k : PKey} {v : List Asg}
    (hnd : (m.map Prod.fst).Nodup) (hl : pyLookup m k = some v)
    (w : List Asg) (sid : Str) :
    countItem (pySet m k w) sid + (v.filter (fun a => a.item = sid)).length
      = countItem m sid + (w.filter (fun a => a.item = sid)).length := by
  induction m with
  | nil => simp [pyLookup] at hl
  | cons e rest ih =>
      rw [List.map_cons, List.nodup_cons] at hnd
      by_cases hek : e.1 = k
      · have hv : v = e.2 := by
          unfold pyLookup at hl
          rw [List.find?_cons_of_pos _ (by simpa using hek)] at hl
          simpa using hl.symm
        have hk : hasKey (e :: rest) k = true := by
          simp [hasKey, hek]
        unfold pySet
        rw [if_pos hk, List.map_cons, if_pos hek]
        have hrest : rest.map (fun e' => if e'.1 = k then (k, w) else e') = rest := by
          apply map_entries_id
          intro x hx hxk
          apply hnd.1
          have : x.1 ∈ rest.map Prod.fst := List.mem_map_of_mem Prod.fst hx
          rwa [hxk, ← hek] at this
        rw [hrest, countItem_cons, countItem_cons, hv]
        dsimp only
        omega
      · have hlr : pyLookup rest k = some v := by
          unfold pyLookup at hl ⊢
          rwa [List.find?_cons_of_neg _ (by simpa using hek)] at hl
        have hkr : hasKey rest k = true := hasKey_of_lookup hlr
        have hk : hasKey (e :: rest) k = true := by
          simp only [hasKey, List.any_cons] at hkr ⊢
          simp [hkr]
        unfold pySet
        rw [if_pos hk, List.map_cons, if_neg hek]
        have hrw : rest.map (fun e' => if e'.1 = k then (k, w) else e') = pySet rest k w := by
          unfold pySet; rw [if_pos hkr]
        rw [hrw, countItem_cons, countItem_cons]
        have := ih hnd.2 hlr
        omega

theorem countItem_dictAppend {m m' : PMap} {k : PKey} {a : Asg}
    (hnd : (m.map Prod.fst).Nodup) (h : dictAppend m k a = some m') (sid : Str) :
    countItem m' sid = countItem m sid + (if a.item = sid then 1 else 0) := by
  unfold dictAppend at h
  cases hl : pyLookup m k with
  | none => rw [hl] at h; simp at h
  | some v =>
      rw [hl] at h
      simp only [Option.some.injEq] at h
      subst h
      have hc := countItem_pySet hnd hl (v ++ [a]) sid
      by_cases ha : a.item = sid <;>
        simp [List.filter_append, List.filter_cons, ha] at hc ⊢ <;> omega

theorem mapFst_dictAppend {m m' : PMap} {k : PKey} {a : Asg}
    (h : dictAppend m k a = some m') :
    m'.map Prod.fst = m.map Prod.fst := by
  unfold dictAppend at h
  cases hl : pyLookup m k with
  | none => rw [hl] at h; simp at h
  | some v =>
      rw [hl] at h
      simp only [Option.some.injEq] at h
      subst h
      exact mapFst_pySet_hasKey (hasKey_of_lookup hl)

theorem countItem_dictAppend_le {m m' : PMap} {k : PKey} {a : Asg}
    (hnd : (m.map Prod.fst).Nodup) (h : dictAppend m k a = some m') (sid : Str) :
    countItem m' sid ≤ countItem m sid + 1 := by
  have := countItem_dictAppend hnd h sid
  split_ifs at this <;> omega

/-- `addS` either updates in place or appends a fresh key. -/
theorem addS_cases (sid' : Str) (key : KeyT) (m : PMap) (acq : Str) :
    (∃ v, pyLookup m (PKey.kt key) = some v ∧
      addS sid' key m acq = pySet m (PKey.kt key)
        (v ++ [if acq = [] then ⟨sid', none⟩ else ⟨sid', some acq⟩])) ∨
    (pyLookup m (PKey.kt key) = none ∧
      addS sid' key m acq =
        m ++ [(PKey.kt key, [if acq = [] then ⟨sid', none⟩ else ⟨sid', some acq⟩])]) := by
  unfold addS add_series_to_info_dict
  cases hl : pyLookup m (PKey.kt key) with
  | some v => exact Or.inl ⟨v, rfl, by simp [hl]⟩
  | none => exact Or.inr ⟨rfl, by simp [hl]⟩

theorem countItem_addS {m : PMap} (hnd : (m.map Prod.fst).Nodup)
    (sid' : Str) (key : KeyT) (acq : Str) (sid : Str) :
    countItem (addS sid' key m acq) sid =
      countItem m sid + (if sid' = sid then 1 else 0) := by
  have hitem : (if acq = [] then (⟨sid', none⟩ : Asg) else ⟨sid', some acq⟩).item = sid' := by
    split <;> rfl
  have h1 : (([if acq = [] then (⟨sid', none⟩ : Asg) else ⟨sid', some acq⟩]).filter
      (fun a => a.item = sid)).length = if sid' = sid then 1 else 0 := by
    by_cases hs : sid' = sid
    · subst hs; simp [List.filter_cons, hitem]
    · simp [List.filter_cons, hitem, hs]
  rcases addS_cases sid' key m acq with ⟨v, hl, heq⟩ | ⟨hl, heq⟩
  · rw [heq]
    have hc := countItem_pySet hnd hl
      (v ++ [if acq = [] then ⟨sid', none⟩ else ⟨sid', some acq⟩]) sid
    rw [List.filter_append, List.length_append, h1] at hc
    omega
  · rw [heq, countItem_append]
    have h2 : countItem [(PKey.kt key,
        [if acq = [] then (⟨sid', none⟩ : Asg) else ⟨sid', some acq⟩])] sid =
        if sid' = sid then 1 else 0 := by
      simp only [countItem, List.map_cons, List.map_nil, List.sum_cons,
        List.sum_nil, Nat.add_zero]
      exact h1
    rw [h2]

theorem mapFst_addS (sid' : Str) (key : KeyT) (m : PMap) (acq : Str) :
    (addS sid' key m acq).map Prod.fst = m.map Prod.fst ∨
    (addS sid' key m acq).map Prod.fst = m.map Prod.fst ++ [PKey.kt key] := by
  rcases addS_cases sid' key m acq with ⟨v, hl, heq⟩ | ⟨hl, heq⟩
  · exact Or.inl (heq ▸ mapFst_pySet_hasKey (hasKey_of_lookup hl))
  · right; rw [heq]; simp

theorem nodup_addS {m : PMap} (hnd : (m.map Prod.fst).Nodup)
    (sid' : Str) (key : KeyT) (acq : Str) :
    ((addS sid' key m acq).map Prod.fst).Nodup := by
  rcases addS_cases sid' key m acq with ⟨v, hl, heq⟩ | ⟨hl, heq⟩
  · rw [heq, mapFst_pySet_hasKey (hasKey_of_lookup hl)]; exact hnd
  · rw [heq]
    simp only [List.map_append, List.map_cons, List.map_nil]
    rw [List.nodup_append]
    refine ⟨hnd, List.nodup_singleton _, ?_⟩
    intro x hx hx'
    simp only [List.mem_singleton] at hx'
    subst hx'
    have h1 := not_hasKey_of_lookup_none hl
    have h2 := hasKey_iff_mem_keys.mpr hx
    rw [h1] at h2
    exact absurd h2 (by decide)

/-- `l.get? i = some x` puts `(i, x)` into `l.enum`. -/
theorem get?_mem_enum {α : Type} {l : List α} {i : Nat} {x : α}
    (h : l.get? i = some x) : (i, x) ∈ l.enum := by
  apply List.mk_mem_enum_iff_getElem?.mpr
  rwa [← List.get?_eq_getElem?]

/-- A positive `previous_series_is_sbref` pins down the previous record. -/
theorem prev_sbref_get {ss : List SeriesRec} {idx : Nat}
    (h : previous_series_is_sbref ss idx = true) :
    1 ≤ idx ∧ ∃ p, ss.get? (idx - 1) = some p := by
  unfold previous_series_is_sbref at h
  cases idx with
  | zero => simp at h
  | succ n =>
      cases hg : ss.get? (n + 1 - 1) with
      | none => rw [hg] at h; simp at h
      | some p => exact ⟨by omega, p, rfl⟩

theorem count_dictAppend_mapped {info : PMap} {k : PKey} {a : Asg} {rn : RNs}
    {out : PMap × RNs} (hnd : (info.map Prod.fst).Nodup)
    (hB : (dictAppend info k a).map (fun m => (m, rn)) = some out) (sid : Str) :
    countItem out.1 sid ≤ countItem info sid + 1 := by
  cases hda : dictAppend info k a with
  | none => rw [hda] at hB; simp at hB
  | some m2 =>
      rw [hda] at hB
      simp only [Option.map_some', Option.some.injEq] at hB
      obtain rfl := hB
      exact countItem_dictAppend_le hnd hda sid

theorem count_addS_self {info : PMap} {rn : RNs} {out : PMap × RNs}
    (hnd : (info.map Prod.fst).Nodup) {sid : Str} {key : KeyT} {acq : Str}
    (hB : some (addS sid key info acq, rn) = some out) :
    countItem out.1 sid ≤ countItem info sid + 1 := by
  obtain rfl := Option.some.inj hB
  dsimp only
  rw [countItem_addS hnd]
  simp

/-- Per-record effect of the first chain: at most one assignment is added,
and the key set is unchanged. -/
theorem chainA_count {d : Str} {ss : List SeriesRec} {idx : Nat}
    {s : SeriesRec} {info m' : PMap} (hnd : (info.map Prod.fst).Nodup)
    (hA : chainA d ss idx s info = some m') :
    countItem m' s.series_id ≤ countItem info s.series_id + 1 ∧
      m'.map Prod.fst = info.map Prod.fst := by
  unfold chainA at hA
  split_ifs at hA with h1 h2 h3 h4
  all_goals
    first
      | exact ⟨countItem_dictAppend_le hnd hA _, mapFst_dictAppend hA⟩
      | (obtain rfl := Option.some.inj hA; exact ⟨by omega, rfl⟩)

/-- Per-record effect of the second chain: the record's own series id is
appended at most once (neighbouring records' ids are distinct from it by
hypothesis). -/
theorem chainB_count {d : Str} {ss : List SeriesRec} {idx : Nat}
    {s : SeriesRec} {info : PMap} {rn : RNs} {out : PMap × RNs}
    (hnd : (info.map Prod.fst).Nodup)
    (hne : ∀ p ∈ ss.enum, p.1 ≠ idx → p.2.series_id ≠ s.series_id)
    (hB : chainB d ss idx s info rn = some out) :
    countItem out.1 s.series_id ≤ countItem info s.series_id + 1 := by
  unfold chainB at hB
  by_cases h1 : ruleScoutP s = true
  · rw [if_pos h1] at hB
    exact count_dictAppend_mapped hnd hB _
  rw [if_neg h1] at hB
  by_cases h2 : ruleT2P s = true
  · rw [if_pos h2] at hB
    dsimp only at hB
    by_cases h3 : (!s.image_type.contains (("NORM").data) &&
        another_series_has_identical_start_time ss idx) = true
    · rw [if_pos h3] at hB
      exact count_dictAppend_mapped hnd hB _
    · rw [if_neg h3] at hB
      exact count_dictAppend_mapped hnd hB _
  rw [if_neg h2] at hB
  by_cases h4 : ruleHasteP s = true
  · rw [if_pos h4] at hB
    exact count_dictAppend_mapped hnd hB _
  rw [if_neg h4] at hB
  by_cases h5 : rulePdBiasP s = true
  · rw [if_pos h5] at hB
    exact count_dictAppend_mapped hnd hB _
  rw [if_neg h5] at hB
  by_cases h6 : ruleIrP s = true
  · rw [if_pos h6] at hB
    exact count_addS_self hnd hB
  rw [if_neg h6] at hB
  by_cases h7 : ruleVfaP s = true
  · rw [if_pos h7] at hB
    exact count_addS_self hnd hB
  rw [if_neg h7] at hB
  by_cases h8 : ruleFuncP s = true
  · rw [if_pos h8] at hB
    cases het : extract_task_name s.series_description with
    | none => rw [het] at hB; simp at hB
    | some task =>
        rw [het] at hB
        dsimp only at hB
        exact count_addS_self hnd hB
  rw [if_neg h8] at hB
  by_cases h9 : ruleSeFmapP s = true
  · rw [if_pos h9] at hB
    dsimp only at hB
    cases hg : ss.get? (idx + 1) with
    | none =>
        rw [hg] at hB
        dsimp only at hB
        exact count_addS_self hnd hB
    | some nxt =>
        rw [hg] at hB
        dsimp only at hB
        by_cases hpair : (nxt.protocol_name == s.protocol_name &&
            nxt.image_type.contains (("P").data)) = true
        · rw [if_pos hpair] at hB
          obtain rfl := Option.some.inj hB
          have hnn : nxt.series_id ≠ s.series_id :=
            hne (idx + 1, nxt) (get?_mem_enum hg) (by omega)
          have hnd1 : ((addS s.series_id
              (dynKey "fmap" ((("acq-fMRI_rec-magnitude_dir-").data) ++
                dirOrNormal d ++ (("_run-\x7bitem:02d\x7d_epi").data)) niftiDicom)
              info []).map Prod.fst).Nodup := nodup_addS hnd _ _ _
          dsimp only
          rw [countItem_addS hnd1, countItem_addS hnd]
          simp [hnn]
        · rw [if_neg hpair] at hB
          exact count_addS_self hnd hB
  rw [if_neg h9] at hB
  by_cases h10 : ruleGreFmapP s = true
  · rw [if_pos h10] at hB
    cases hflag : s.image_type.get? 2 with
    | none => rw [hflag] at hB; simp at hB
    | some flag =>
        rw [hflag] at hB
        dsimp only at hB
        by_cases hM : (flag == ("M").data) = true
        · rw [if_pos hM] at hB
          exact count_dictAppend_mapped hnd hB _
        rw [if_neg hM] at hB
        by_cases hP : (flag == ("P").data) = true
        · rw [if_pos hP] at hB
          exact count_dictAppend_mapped hnd hB _
        · rw [if_neg hP] at hB
          obtain rfl := Option.some.inj hB
          exact Nat.le_add_right _ _
  rw [if_neg h10] at hB
  by_cases h11 : ruleDwiP s = true
  · rw [if_pos h11] at hB
    by_cases h12 : decide (5 ≤ s.dim4) = true
    · rw [if_pos h12] at hB
      dsimp only at hB
      cases hda : dictAppend info (PKey.kt dwi_key)
          ⟨s.series_id, some (natStr s.dim4 ++ ("vols").data)⟩ with
      | none => rw [hda] at hB; simp at hB
      | some info1 =>
          rw [hda] at hB
          dsimp only at hB
          have hnd1 : (info1.map Prod.fst).Nodup := by
            rw [mapFst_dictAppend hda]; exact hnd
          by_cases hsb : (previous_series_is_sbref ss idx &&
              (match ss.get? (idx - 1) with
               | some p => containsSub p.sequence_name (("epse2d").data)
               | none => false)) = true
          · rw [if_pos hsb] at hB
            rw [Bool.and_eq_true] at hsb
            obtain ⟨hge1, p, hp⟩ := prev_sbref_get hsb.1
            rw [hp] at hB
            dsimp only at hB
            have hpn : p.series_id ≠ s.series_id :=
              hne (idx - 1, p) (get?_mem_enum hp) (by omega)
            cases hda2 : dictAppend info1 (PKey.kt dwi_sbref_key)
                ⟨p.series_id, some (natStr s.dim4 ++ ("vols").data)⟩ with
            | none => rw [hda2] at hB; simp at hB
            | some info2 =>
                rw [hda2] at hB
                simp only [Option.map_some', Option.some.injEq] at hB
                obtain rfl := hB
                have e1 := countItem_dictAppend hnd hda s.series_id
                have e2 := countItem_dictAppend hnd1 hda2 s.series_id
                rw [if_neg hpn] at e2
                dsimp only
                split_ifs at e1 <;> omega
          · rw [if_neg hsb] at hB
            obtain rfl := Option.some.inj hB
            exact countItem_dictAppend_le hnd hda _
    · rw [if_neg h12] at hB
      dsimp only at hB
      by_cases h13 : previous_series_is_sbref ss idx = true
      · rw [if_pos h13] at hB
        obtain ⟨hge1, p, hp⟩ := prev_sbref_get h13
        rw [hp] at hB
        dsimp only at hB
        obtain rfl := Option.some.inj hB
        have hpn : p.series_id ≠ s.series_id :=
          hne (idx - 1, p) (get?_mem_enum hp) (by omega)
        have hnd1 : ((addS s.series_id
            (dynKey "fmap" ((("acq-dwi_dir-").data) ++ dirOrNormal d ++
              (("_run-\x7bitem:02d\x7d_epi").data)) niftiDicom)
            info []).map Prod.fst).Nodup := nodup_addS hnd _ _ _
        dsimp only
        rw [countItem_addS hnd1, countItem_addS hnd]
        simp [hpn]
      · rw [if_neg h13] at hB
        exact count_addS_self hnd hB
  rw [if_neg h11] at hB
  by_cases h14 : ruleScreenP s = true
  · rw [if_pos h14] at hB
    exact count_dictAppend_mapped hnd hB _
  · rw [if_neg h14] at hB
    obtain rfl := Option.some.inj hB
    exact Nat.le_add_right _ _

/-- **C2, amended.**  Within each of the two independently dispatched
`if`/`elif` chains, at most one rule fires per record, so each chain appends
the record's own series id at most once; but because the chains are
independent, a record can be assigned by both the T1-like chain and the
scout/T2-like chain (two assignments in total, as exhibited by the
counterexample). -/
theorem chains_append_once_each {d : Str} {ss : List SeriesRec} {idx : Nat}
    {s : SeriesRec} {info m' : PMap} {rn : RNs} {out : PMap × RNs}
    (hnd : (info.map Prod.fst).Nodup)
    (hne : ∀ p ∈ ss.enum, p.1 ≠ idx → p.2.series_id ≠ s.series_id)
    (hA : chainA d ss idx s info = some m')
    (hB : chainB d ss idx s m' rn = some out) :
    countItem m' s.series_id ≤ countItem info s.series_id + 1 ∧
      countItem out.1 s.series_id ≤ countItem m' s.series_id + 1 := by
  have hca := chainA_count hnd hA
  have hnd' : (m'.map Prod.fst).Nodup := by rw [hca.2]; exact hnd
  exact ⟨hca.1, chainB_count hnd' hne hB⟩

/-- **C2, witness.** -/
theorem chains_append_once_each_witness :
    countItem wInfo1 (("s1").data) ≤ countItem wInfo (("s1").data) + 1 ∧
    countItem wOut.1 (("s1").data) ≤ countItem wInfo1 (("s1").data) + 1 :=
  chains_append_once_each
    (by decide : (wInfo.map Prod.fst).Nodup)
    (by decide : ∀ p ∈ ([wRec] : List SeriesRec).enum,
      p.1 ≠ 0 → p.2.series_id ≠ wRec.series_id)
    (by decide : chainA [] [wRec] 0 wRec wInfo = some wInfo1)
    (by decide : chainB [] [wRec] 0 wRec wInfo1 [] = some wOut)

/-!
### Temporal-orderer lemmas (claim C6)
-/

theorem mem_insSorted {x y : Str} {l : List Str} :
    x ∈ insSorted y l ↔ x = y ∨ x ∈ l := by
  induction l with
  | nil => simp [insSorted]
  | cons z zs ih =>
      unfold insSorted
      split_ifs with h
      · simp only [List.mem_cons, ih]
        tauto
      · simp only [List.mem_cons]

theorem mem_sortStrs {x : Str} {l : List Str} : x ∈ sortStrs l ↔ x ∈ l := by
  induction l with
  | nil => simp [sortStrs]
  | cons y ys ih =>
      unfold sortStrs
      rw [mem_insSorted, ih]
      simp

theorem condAppend_mono {x : SeriesRec} :
    ∀ (l : List SeriesRec) (acc : List SeriesRec),
      x ∈ acc → x ∈ l.foldl condAppend acc := by
  intro l
  induction l with
  | nil => intro acc h; exact h
  | cons z zs ih =>
      intro acc h
      simp only [List.foldl_cons]
      apply ih
      unfold condAppend
      split_ifs <;> simp [h]

theorem condAppend_self {s : SeriesRec} :
    ∀ (l : List SeriesRec) (acc : List SeriesRec),
      s ∈ l → s ∈ l.foldl condAppend acc := by
  intro l
  induction l with
  | nil => intro acc h; exact absurd h (List.not_mem_nil s)
  | cons z zs ih =>
      intro acc h
      simp only [List.foldl_cons]
      rcases List.mem_cons.mp h with rfl | h'
      · apply condAppend_mono
        unfold condAppend
        split_ifs with hz <;> simp [hz]
      · exact ih _ h'

theorem condAppend_mem {x : SeriesRec} :
    ∀ (l : List SeriesRec) (acc : List SeriesRec),
      x ∈ l.foldl condAppend acc → x ∈ acc ∨ x ∈ l := by
  intro l
  induction l with
  | nil => intro acc h; exact Or.inl h
  | cons z zs ih =>
      intro acc h
      simp only [List.foldl_cons] at h
      rcases ih _ h with h' | h'
      · unfold condAppend at h'
        split_ifs at h' with hz
        · exact Or.inl h'
        · rcases List.mem_append.mp h' with h'' | h''
          · exact Or.inl h''
          · simp only [List.mem_singleton] at h''
            exact Or.inr (h'' ▸ List.mem_cons_self z zs)
      · exact Or.inr (List.mem_cons_of_mem z h')

/-- The trailing conditional-append loop splits off a suffix of elements
taken from `l` that were not already present. -/
theorem condAppend_split :
    ∀ (l : List SeriesRec) (acc : List SeriesRec),
      ∃ B, l.foldl condAppend acc = acc ++ B ∧
        ∀ y ∈ B, y ∈ l ∧ y ∉ acc := by
  intro l
  induction l with
  | nil => intro acc; exact ⟨[], by simp, by simp⟩
  | cons z zs ih =>
      intro acc
      rw [List.foldl_cons]
      by_cases hz : z ∈ acc
      · rw [show condAppend acc z = acc from by simp [condAppend, hz]]
        obtain ⟨B, hB, hprop⟩ := ih acc
        exact ⟨B, hB, fun y hy =>
          ⟨List.mem_cons_of_mem z (hprop y hy).1, (hprop y hy).2⟩⟩
      · rw [show condAppend acc z = acc ++ [z] from by simp [condAppend, hz]]
        obtain ⟨B, hB, hprop⟩ := ih (acc ++ [z])
        refine ⟨z :: B, by rw [hB]; simp, ?_⟩
        intro y hy
        rcases List.mem_cons.mp hy with rfl | hy'
        · exact ⟨List.mem_cons_self y zs, hz⟩
        · obtain ⟨h1, h2⟩ := hprop y hy'
          exact ⟨List.mem_cons_of_mem z h1,
            fun hc => h2 (List.mem_append.mpr (Or.inl hc))⟩

theorem filterAppend_mono {x : SeriesRec} {dts : List SeriesRec} :
    ∀ (uids : List Str) (acc : List SeriesRec),
      x ∈ acc →
      x ∈ uids.foldl (fun a sid =>
        a ++ dts.filter (fun ss => ss.series_uid = sid)) acc := by
  intro uids
  induction uids with
  | nil => intro acc h; exact h
  | cons u us ih =>
      intro acc h
      simp only [List.foldl_cons]
      exact ih _ (List.mem_append.mpr (Or.inl h))

theorem filterAppend_mem {x : SeriesRec} {dts : List SeriesRec} :
    ∀ (uids : List Str) (acc : List SeriesRec),
      x ∈ uids.foldl (fun a sid =>
        a ++ dts.filter (fun ss => ss.series_uid = sid)) acc →
      x ∈ acc ∨ x ∈ dts := by
  intro uids
  induction uids with
  | nil => intro acc h; exact Or.inl h
  | cons u us ih =>
      intro acc h
      simp only [List.foldl_cons] at h
      rcases ih _ h with h' | h'
      · rcases List.mem_append.mp h' with h'' | h''
        · exact Or.inl h''
        · exact Or.inr (List.mem_filter.mp h'').1
      · exact Or.inr h'

theorem filterAppend_self {s : SeriesRec} {dts : List SeriesRec}
    (hs : s ∈ dts) :
    ∀ (uids : List Str) (acc : List SeriesRec),
      s.series_uid ∈ uids →
      s ∈ uids.foldl (fun a sid =>
        a ++ dts.filter (fun ss => ss.series_uid = sid)) acc := by
  intro uids
  induction uids with
  | nil => intro acc h; exact absurd h (List.not_mem_nil _)
  | cons u us ih =>
      intro acc h
      simp only [List.foldl_cons]
      rcases List.mem_cons.mp h with hu | hu
      · apply filterAppend_mono
        apply List.mem_append.mpr
        right
        exact List.mem_filter.mpr ⟨hs, by simp [hu]⟩
      · exact ih _ hu

theorem dtGroupStep_mono {x : SeriesRec} {seqinfo acc : List SeriesRec}
    {dt : Str} (h : x ∈ acc) : x ∈ dtGroupStep seqinfo acc dt := by
  unfold dtGroupStep
  dsimp only
  exact condAppend_mono _ _ (filterAppend_mono _ _ h)

theorem dtGroupStep_mem {x : SeriesRec} {seqinfo acc : List SeriesRec}
    {dt : Str} (h : x ∈ dtGroupStep seqinfo acc dt) :
    x ∈ acc ∨ (x ∈ seqinfo ∧ (x.date ≠ [] ∧ x.time ≠ [])) := by
  unfold dtGroupStep at h
  dsimp only at h
  rcases condAppend_mem _ _ h with h' | h'
  · rcases filterAppend_mem _ _ h' with h'' | h''
    · exact Or.inl h''
    · have := List.mem_filter.mp h''
      refine Or.inr ⟨this.1, ?_⟩
      have hp := this.2
      simp only [decide_eq_true_eq] at hp
      exact ⟨hp.1, hp.2.1⟩
  · have := List.mem_filter.mp h'
    refine Or.inr ⟨this.1, ?_⟩
    have hp := this.2
    simp only [decide_eq_true_eq] at hp
    exact ⟨hp.1, hp.2.1⟩

theorem dtGroupStep_self {s : SeriesRec} {seqinfo acc : List SeriesRec}
    (hs : s ∈ seqinfo) (hd : s.date ≠ []) (ht : s.time ≠ []) :
    s ∈ dtGroupStep seqinfo acc (s.date ++ s.time) := by
  unfold dtGroupStep
  dsimp only
  have hdt : s ∈ seqinfo.filter (fun ss =>
      ss.date ≠ [] ∧ ss.time ≠ [] ∧ ss.date ++ ss.time = s.date ++ s.time) :=
    List.mem_filter.mpr ⟨hs, by simp [hd, ht]⟩
  by_cases hu : s.series_uid = []
  · exact condAppend_self _ _ hdt
  · apply condAppend_mono
    apply filterAppend_self hdt
    rw [mem_sortStrs]
    exact List.mem_map.mpr ⟨s, List.mem_filter.mpr ⟨hdt, by simp [hu]⟩, rfl⟩

theorem phase1_mem {x : SeriesRec} {seqinfo : List SeriesRec} :
    ∀ (dts : List Str) (acc : List SeriesRec),
      x ∈ dts.foldl (dtGroupStep seqinfo) acc →
      x ∈ acc ∨ (x ∈ seqinfo ∧ (x.date ≠ [] ∧ x.time ≠ [])) := by
  intro dts
  induction dts with
  | nil => intro acc h; exact Or.inl h
  | cons dt rest ih =>
      intro acc h
      simp only [List.foldl_cons] at h
      rcases ih _ h with h' | h'
      · exact dtGroupStep_mem h'
      · exact Or.inr h'

theorem phase1_mono {x : SeriesRec} {seqinfo : List SeriesRec} :
    ∀ (dts : List Str) (acc : List SeriesRec),
      x ∈ acc → x ∈ dts.foldl (dtGroupStep seqinfo) acc := by
  intro dts
  induction dts with
  | nil => intro acc h; exact h
  | cons dt rest ih =>
      intro acc h
      simp only [List.foldl_cons]
      exact ih _ (dtGroupStep_mono h)

theorem phase1_self {s : SeriesRec} {seqinfo : List SeriesRec}
    (hs : s ∈ seqinfo) (hd : s.date ≠ []) (ht : s.time ≠ []) :
    ∀ (dts : List Str) (acc : List SeriesRec),
      s.date ++ s.time ∈ dts →
      s ∈ dts.foldl (dtGroupStep seqinfo) acc := by
  intro dts
  induction dts with
  | nil => intro acc h; exact absurd h (List.not_mem_nil _)
  | cons dt rest ih =>
      intro acc h
      simp only [List.foldl_cons]
      rcases List.mem_cons.mp h with hdt | hdt
      · exact phase1_mono _ _ (hdt ▸ dtGroupStep_self hs hd ht)
      · exact ih _ hdt

/-- **C6, amended.**  The sorter's output splits into a prefix of records
that have **both** a date and a time (the timestamp phase) followed by a
suffix of records lacking a date or lacking a time (the trailing loop); in
particular every record with neither field comes after every record with
both, but records with exactly one temporal field share the trailing
section. -/
theorem sort_split_both_then_rest (seqinfo : List SeriesRec) :
    ∃ A B, sort_seqinfo_by_series_date_time seqinfo = A ++ B ∧
      (∀ x ∈ A, x.date ≠ [] ∧ x.time ≠ []) ∧
      (∀ y ∈ B, ¬(y.date ≠ [] ∧ y.time ≠ [])) := by
  unfold sort_seqinfo_by_series_date_time
  dsimp only
  set dts := sortStrs (((seqinfo.filter (fun s => s.date ≠ [] ∧ s.time ≠ [])).map
      (fun s => s.date ++ s.time)).dedup) with hdts
  set phase1 := dts.foldl (dtGroupStep seqinfo) [] with hphase1
  obtain ⟨B, hB, hprop⟩ := condAppend_split seqinfo phase1
  refine ⟨phase1, B, hB, ?_, ?_⟩
  · intro x hx
    rcases phase1_mem dts [] hx with h | h
    · exact absurd h (List.not_mem_nil x)
    · exact h.2
  · intro y hy hcon
    obtain ⟨hyl, hyn⟩ := hprop y hy
    apply hyn
    apply phase1_self hyl hcon.1 hcon.2 dts []
    rw [hdts, mem_sortStrs, List.mem_dedup]
    exact List.mem_map.mpr
      ⟨y, List.mem_filter.mpr ⟨hyl, by simp [hcon.1, hcon.2]⟩, rfl⟩

/-!
### Totality of `infotodict` (claim C1)
-/

theorem lookup_isSome_of_mem_keys {m : PMap} {k : PKey}
    (h : k ∈ m.map Prod.fst) : ∃ v, pyLookup m k = some v := by
  obtain ⟨e, he, hek⟩ := List.mem_map.mp h
  unfold pyLookup
  cases hf : m.find? (fun e => e.1 = k) with
  | some e' => exact ⟨e'.2, rfl⟩
  | none =>
      have := List.find?_eq_none.mp hf e he
      simp [hek] at this

theorem dictAppend_some_of_mem {m : PMap} {k : PKey}
    (h : k ∈ m.map Prod.fst) (a : Asg) :
    ∃ m', dictAppend m k a = some m' := by
  obtain ⟨v, hv⟩ := lookup_isSome_of_mem_keys h
  exact ⟨_, by unfold dictAppend; rw [hv]⟩

theorem InvM_dictAppend {m m' : PMap} {k : PKey} {a : Asg}
    (hinv : InvM m) (h : dictAppend m k a = some m') : InvM m' := by
  have hk := mapFst_dictAppend h
  exact ⟨fun x hx => hk ▸ hinv.1 x hx, fun x hx => hinv.2.1 x (hk ▸ hx),
    hk ▸ hinv.2.2⟩

theorem InvM_addS {m : PMap} (hinv : InvM m)
    (sid : Str) (key : KeyT) (acq : Str) : InvM (addS sid key m acq) := by
  refine ⟨fun x hx => ?_, fun x hx => ?_, nodup_addS hinv.2.2 sid key acq⟩
  · rcases mapFst_addS sid key m acq with hk | hk
    · rw [hk]; exact hinv.1 x hx
    · rw [hk]; exact List.mem_append.mpr (Or.inl (hinv.1 x hx))
  · rcases mapFst_addS sid key m acq with hk | hk
    · rw [hk] at hx; exact hinv.2.1 x hx
    · rw [hk] at hx
      rcases List.mem_append.mp hx with h' | h'
      · exact hinv.2.1 x h'
      · simp only [List.mem_singleton] at h'
        subst h'
        rfl

/-- Appending one record's worth of assignments through `dictAppend` keeps
the invariant and succeeds whenever the key is one of the initial static
keys. -/
theorem dictAppend_init_some {m : PMap} {k : PKey}
    (hinv : InvM m) (hk : k ∈ initKeys) (a : Asg) :
    ∃ m', dictAppend m k a = some m' ∧ InvM m' := by
  obtain ⟨m', hm'⟩ := dictAppend_some_of_mem (hinv.1 k hk) a
  exact ⟨m', hm', InvM_dictAppend hinv hm'⟩

/-- Under the safety side conditions, the first chain never raises and
maintains the invariant. -/
theorem chainA_some (d : Str) {ss : List SeriesRec} {idx : Nat} {s : SeriesRec}
    {info : PMap} (hinv : InvM info)
    (hT1 : ruleT1HighresP s = true →
      s.image_type.contains (("NORM").data) = true ∨
      another_series_has_identical_start_time ss idx = false) :
    ∃ m', chainA d ss idx s info = some m' ∧ InvM m' := by
  unfold chainA
  by_cases h1 : ruleT1HighresP s = true
  · rw [if_pos h1]
    dsimp only
    have hcond : (!s.image_type.contains (("NORM").data) &&
        another_series_has_identical_start_time ss idx) = false := by
      rcases hT1 h1 with h | h
      · rw [h]; rfl
      · rw [h, Bool.and_false]
    rw [hcond]
    simp only [Bool.false_eq_true, if_false]
    exact dictAppend_init_some hinv (by decide) _
  rw [if_neg h1]
  by_cases h2 : ruleInplaneP s = true
  · rw [if_pos h2]
    exact dictAppend_init_some hinv (by decide) _
  rw [if_neg h2]
  by_cases h3 : ruleFseT1P s = true
  · rw [if_pos h3]
    exact dictAppend_init_some hinv (by decide) _
  · rw [if_neg h3]
    exact ⟨info, rfl, hinv⟩

/-- Under the safety side conditions, the second chain never raises and
maintains the invariant. -/
theorem chainB_some (d : Str) {ss : List SeriesRec} {idx : Nat} {s : SeriesRec}
    {info : PMap} (rn : RNs) (hinv : InvM info) (hsafe : recSafe ss idx s) :
    ∃ out, chainB d ss idx s info rn = some out ∧ InvM out.1 := by
  obtain ⟨hgre, hfunc, _, hT2, hhaste⟩ := hsafe
  unfold chainB
  by_cases h1 : ruleScoutP s = true
  · rw [if_pos h1]
    obtain ⟨m', hm', hinv'⟩ := dictAppend_init_some hinv
      (show PKey.kt t2_scout_key ∈ initKeys by decide) ⟨s.series_id, none⟩
    exact ⟨(m', rn), by rw [hm']; rfl, hinv'⟩
  rw [if_neg h1]
  by_cases h2 : ruleT2P s = true
  · rw [if_pos h2]
    dsimp only
    have hcond : (!s.image_type.contains (("NORM").data) &&
        another_series_has_identical_start_time ss idx) = false := by
      rcases hT2 h2 with h | h
      · rw [h]; rfl
      · rw [h, Bool.and_false]
    rw [hcond]
    simp only [Bool.false_eq_true, if_false]
    obtain ⟨m', hm', hinv'⟩ := dictAppend_init_some hinv
      (show PKey.kt t2_key ∈ initKeys by decide) _
    exact ⟨(m', rn), by rw [hm']; rfl, hinv'⟩
  rw [if_neg h2]
  rw [if_neg (show ¬ ruleHasteP s = true from by simp [hhaste])]
  by_cases h5 : rulePdBiasP s = true
  · rw [if_pos h5]
    obtain ⟨m', hm', hinv'⟩ := dictAppend_init_some hinv
      (show PKey.kt pd_bias_receive_key ∈ initKeys by decide) _
    exact ⟨(m', rn), by rw [hm']; rfl, hinv'⟩
  rw [if_neg h5]
  by_cases h6 : ruleIrP s = true
  · rw [if_pos h6]
    exact ⟨_, rfl, InvM_addS hinv _ _ _⟩
  rw [if_neg h6]
  by_cases h7 : ruleVfaP s = true
  · rw [if_pos h7]
    exact ⟨_, rfl, InvM_addS hinv _ _ _⟩
  rw [if_neg h7]
  by_cases h8 : ruleFuncP s = true
  · rw [if_pos h8]
    obtain ⟨task, het⟩ := Option.isSome_iff_exists.mp (hfunc h8)
    rw [het]
    dsimp only
    exact ⟨_, rfl, InvM_addS hinv _ _ _⟩
  rw [if_neg h8]
  by_cases h9 : ruleSeFmapP s = true
  · rw [if_pos h9]
    dsimp only
    cases hg : ss.get? (idx + 1) with
    | none =>
        dsimp only
        exact ⟨_, rfl, InvM_addS hinv _ _ _⟩
    | some nxt =>
        dsimp only
        by_cases hpair : (nxt.protocol_name == s.protocol_name &&
            nxt.image_type.contains (("P").data)) = true
        · rw [if_pos hpair]
          exact ⟨_, rfl, InvM_addS (InvM_addS hinv _ _ _) _ _ _⟩
        · rw [if_neg hpair]
          exact ⟨_, rfl, InvM_addS hinv _ _ _⟩
  rw [if_neg h9]
  by_cases h10 : ruleGreFmapP s = true
  · rw [if_pos h10]
    have hlen := hgre h10
    obtain ⟨flag, hflag⟩ : ∃ f, s.image_type.get? 2 = some f :=
      ⟨_, List.get?_eq_get (by omega)⟩
    rw [hflag]
    dsimp only
    by_cases hM : (flag == ("M").data) = true
    · rw [if_pos hM]
      obtain ⟨m', hm', hinv'⟩ := dictAppend_init_some hinv
        (show PKey.kt fmap_gre_mag_key ∈ initKeys by decide) _
      exact ⟨(m', rn), by rw [hm']; rfl, hinv'⟩
    rw [if_neg hM]
    by_cases hP : (flag == ("P").data) = true
    · rw [if_pos hP]
      obtain ⟨m', hm', hinv'⟩ := dictAppend_init_some hinv
        (show PKey.kt fmap_gre_phase_key ∈ initKeys by decide) _
      exact ⟨(m', rn), by rw [hm']; rfl, hinv'⟩
    · rw [if_neg hP]
      exact ⟨(info, rn), rfl, hinv⟩
  rw [if_neg h10]
  by_cases h11 : ruleDwiP s = true
  · rw [if_pos h11]
    by_cases h12 : decide (5 ≤ s.dim4) = true
    · rw [if_pos h12]
      dsimp only
      obtain ⟨info1, hda, hinv1⟩ := dictAppend_init_some hinv
        (show PKey.kt dwi_key ∈ initKeys by decide)
        ⟨s.series_id, some (natStr s.dim4 ++ ("vols").data)⟩
      rw [hda]
      dsimp only
      by_cases hsb : (previous_series_is_sbref ss idx &&
          (match ss.get? (idx - 1) with
           | some p => containsSub p.sequence_name (("epse2d").data)
           | none => false)) = true
      · rw [if_pos hsb]
        have hsb' := hsb
        rw [Bool.and_eq_true] at hsb'
        obtain ⟨hge1, p, hp⟩ := prev_sbref_get hsb'.1
        rw [hp]
        dsimp only
        obtain ⟨info2, hda2, hinv2⟩ := dictAppend_init_some hinv1
          (show PKey.kt dwi_sbref_key ∈ initKeys by decide) _
        exact ⟨(info2, rn), by rw [hda2]; rfl, hinv2⟩
      · rw [if_neg hsb]
        exact ⟨(info1, rn), rfl, hinv1⟩
    · rw [if_neg h12]
      dsimp only
      by_cases h13 : previous_series_is_sbref ss idx = true
      · rw [if_pos h13]
        obtain ⟨hge1, p, hp⟩ := prev_sbref_get h13
        rw [hp]
        dsimp only
        exact ⟨_, rfl, InvM_addS (InvM_addS hinv _ _ _) _ _ _⟩
      · rw [if_neg h13]
        exact ⟨_, rfl, InvM_addS hinv _ _ _⟩
  rw [if_neg h11]
  by_cases h14 : ruleScreenP s = true
  · rw [if_pos h14]
    obtain ⟨m', hm', hinv'⟩ := dictAppend_init_some hinv
      (show PKey.kt screen_save_key ∈ initKeys by decide) _
    exact ⟨(m', rn), by rw [hm']; rfl, hinv'⟩
  · rw [if_neg h14]
    exact ⟨(info, rn), rfl, hinv⟩

theorem mapFst_pyRemove (m : PMap) (k : PKey) :
    (pyRemove m k).map Prod.fst = (m.map Prod.fst).filter (fun x => ¬ x = k) := by
  induction m with
  | nil => rfl
  | cons e rest ih =>
      by_cases hek : e.1 = k <;> simp [pyRemove, List.filter_cons, hek] at ih ⊢ <;>
        simpa [pyRemove] using ih

theorem mapFst_pySet_cases (m : PMap) (k : PKey) (v : List Asg) :
    (hasKey m k = true ∧ (pySet m k v).map Prod.fst = m.map Prod.fst) ∨
    (hasKey m k = false ∧
      (pySet m k v).map Prod.fst = m.map Prod.fst ++ [k]) := by
  by_cases hk : hasKey m k = true
  · exact Or.inl ⟨hk, mapFst_pySet_hasKey hk⟩
  · refine Or.inr ⟨by simpa using hk, ?_⟩
    unfold pySet
    rw [if_neg hk]
    simp

/-- On a tuple key, `keyHead` succeeds. -/
theorem keyHead_of_isKt {k : PKey} (h : isKt k = true) :
    ∃ t, keyHead k = some t := by
  cases k with
  | ks s => simp [isKt] at h
  | kt t => exact ⟨t.template, rfl⟩

theorem mapM_keyHead_some :
    ∀ ks : List PKey, (∀ k ∈ ks, isKt k = true) →
      ∃ ts, ks.mapM keyHead = some ts := by
  intro ks
  induction ks with
  | nil => intro _; exact ⟨[], rfl⟩
  | cons k rest ih =>
      intro h
      obtain ⟨t, ht⟩ := keyHead_of_isKt (h k (List.mem_cons_self _ _))
      obtain ⟨ts, hts⟩ := ih (fun x hx => h x (List.mem_cons_of_mem _ hx))
      exact ⟨t :: ts, by rw [List.mapM_cons, ht, hts]; rfl⟩

theorem allTemplates_some {m : PMap}
    (h : ∀ x ∈ m.map Prod.fst, isKt x = true) :
    ∃ ts, allTemplates m = some ts := by
  unfold allTemplates
  exact mapM_keyHead_some _ h

/-- The key-level effect of one cleanup rewrite
`info[tuple(new_k)] = info.pop(k)`. -/
theorem rewrite_props {m : PMap} {k k' : PKey} {v : List Asg}
    (hAll : ∀ x ∈ m.map Prod.fst, isKt x = true)
    (hnd : (m.map Prod.fst).Nodup) (hkt' : isKt k' = true) :
    (∀ x ∈ (pySet (pyRemove m k) k' v).map Prod.fst, isKt x = true) ∧
    ((pySet (pyRemove m k) k' v).map Prod.fst).Nodup ∧
    (∀ x ∈ m.map Prod.fst, x ≠ k →
      x ∈ (pySet (pyRemove m k) k' v).map Prod.fst) := by
  have hrk := mapFst_pyRemove m k
  have hrnd : ((pyRemove m k).map Prod.fst).Nodup := by
    rw [hrk]; exact hnd.filter _
  have hrall : ∀ x ∈ (pyRemove m k).map Prod.fst, isKt x = true := by
    intro x hx
    rw [hrk] at hx
    exact hAll x (List.mem_of_mem_filter hx)
  rcases mapFst_pySet_cases (pyRemove m k) k' v with ⟨hk, heq⟩ | ⟨hk, heq⟩
  · refine ⟨fun x hx => hrall x (heq ▸ hx), heq ▸ hrnd, fun x hx hxk => ?_⟩
    rw [heq, hrk]
    exact List.mem_filter.mpr ⟨hx, by simpa using hxk⟩
  · refine ⟨fun x hx => ?_, ?_, fun x hx hxk => ?_⟩
    · rw [heq] at hx
      rcases List.mem_append.mp hx with h' | h'
      · exact hrall x h'
      · simp only [List.mem_singleton] at h'
        exact h' ▸ hkt'
    · rw [heq, List.nodup_append]
      refine ⟨hrnd, List.nodup_singleton _, fun x hx hx' => ?_⟩
      simp only [List.mem_singleton] at hx'
      subst hx'
      have := hasKey_iff_mem_keys.mpr hx
      rw [hk] at this
      exact absurd this (by decide)
    · rw [heq]
      apply List.mem_append.mpr
      left
      rw [hrk]
      exact List.mem_filter.mpr ⟨hx, by simpa using hxk⟩

/-- One cleanup-loop iteration on an all-tuple map never raises, keeps the
keys tuple-only and distinct, and keeps every other key present. -/
theorem clean_up_step_props {m : PMap} {k : PKey}
    (hAll : ∀ x ∈ m.map Prod.fst, isKt x = true)
    (hnd : (m.map Prod.fst).Nodup)
    (hmem : k ∈ m.map Prod.fst) :
    ∃ m1, clean_up_step m k = some m1 ∧
      (∀ x ∈ m1.map Prod.fst, isKt x = true) ∧
      (m1.map Prod.fst).Nodup ∧
      (∀ x ∈ m.map Prod.fst, x ≠ k → x ∈ m1.map Prod.fst) := by
  obtain ⟨v, hv⟩ := lookup_isSome_of_mem_keys hmem
  obtain ⟨kt0, rfl⟩ : ∃ kt0, k = PKey.kt kt0 := by
    have h := hAll k hmem
    cases k with
    | ks s => simp [isKt] at h
    | kt t => exact ⟨t, rfl⟩
  unfold clean_up_step
  rw [hv]
  dsimp only [keyHead]
  by_cases hf1 : v.length = 1 ∧ containsSub kt0.template runPh = true
  · rw [if_pos hf1]
    obtain ⟨p1, p2, p3⟩ := rewrite_props hAll hnd
      (show isKt (setTemplate (PKey.kt kt0) (replaceAll kt0.template runPh []))
        = true from rfl) (v := v)
    exact ⟨_, rfl, p1, p2, p3⟩
  · rw [if_neg hf1]
    by_cases hq : containsSub kt0.template run01s = true
    · rw [if_pos hq]
      obtain ⟨ts, hts⟩ := allTemplates_some hAll
      rw [hts]
      dsimp only
      by_cases hsib : replaceAll kt0.template run01s run02s ∈ ts
      · rw [if_pos hsib]
        exact ⟨m, rfl, hAll, hnd, fun x hx _ => hx⟩
      · rw [if_neg hsib]
        obtain ⟨p1, p2, p3⟩ := rewrite_props hAll hnd
          (show isKt (setTemplate (PKey.kt kt0)
            (replaceAll kt0.template run01s [])) = true from rfl) (v := v)
        exact ⟨_, rfl, p1, p2, p3⟩
    · rw [if_neg hq]
      exact ⟨m, rfl, hAll, hnd, fun x hx _ => hx⟩

theorem cleanup_fold_some :
    ∀ (ks : List PKey) (m : PMap),
      (∀ x ∈ m.map Prod.fst, isKt x = true) → (m.map Prod.fst).Nodup →
      ks.Nodup → (∀ k ∈ ks, k ∈ m.map Prod.fst) →
      ∃ n, ks.foldlM clean_up_step m = some n := by
  intro ks
  induction ks with
  | nil => intro m _ _ _ _; exact ⟨m, rfl⟩
  | cons k rest ih =>
      intro m hAll hnd hksnd hmem
      obtain ⟨m1, hm1, hAll1, hnd1, hsurv⟩ :=
        clean_up_step_props hAll hnd (hmem k (List.mem_cons_self _ _))
      rw [List.foldlM_cons, hm1]
      show ∃ n, rest.foldlM clean_up_step m1 = some n
      apply ih m1 hAll1 hnd1 (List.nodup_cons.mp hksnd).2
      intro k' hk'
      apply hsurv k' (hmem k' (List.mem_cons_of_mem _ hk'))
      intro heq
      exact (List.nodup_cons.mp hksnd).1 (heq ▸ hk')

/-- The cleanup pass never raises on a map with distinct tuple keys. -/
theorem clean_up_some {m : PMap}
    (hAll : ∀ x ∈ m.map Prod.fst, isKt x = true)
    (hnd : (m.map Prod.fst).Nodup) :
    ∃ n, clean_up_unneeded_tags_from_info m = some n := by
  unfold clean_up_unneeded_tags_from_info
  exact cleanup_fold_some _ m hAll hnd hnd (fun k hk => hk)

theorem infoStep_eq_some {d : Str} {ss : List SeriesRec} {st : PMap × RNs}
    {p : Nat × SeriesRec} {m1 : PMap}
    (h : chainA d ss p.1 p.2 st.1 = some m1) :
    infoStep d ss st p = chainB d ss p.1 p.2 m1 st.2 := by
  unfold infoStep
  rw [h]

theorem infotodict_fold_some (d : Str) (ss : List SeriesRec) :
    ∀ (l : List (Nat × SeriesRec)) (st : PMap × RNs), InvM st.1 →
      (∀ p ∈ l, recSafe ss p.1 p.2) →
      ∃ st', l.foldlM (infoStep d ss) st = some st' ∧ InvM st'.1 := by
  intro l
  induction l with
  | nil => intro st h _; exact ⟨st, rfl, h⟩
  | cons p rest ih =>
      intro st hinv hsafe
      have hs := hsafe p (List.mem_cons_self _ _)
      obtain ⟨m1, hm1, hinv1⟩ := chainA_some d hinv hs.2.2.1
      obtain ⟨out, hout, hinv2⟩ := chainB_some d st.2 hinv1 hs
      rw [List.foldlM_cons, infoStep_eq_some hm1, hout]
      show ∃ st', rest.foldlM (infoStep d ss) out = some st' ∧ InvM st'.1
      exact ih out hinv2 (fun q hq => hsafe q (List.mem_cons_of_mem _ hq))

/-- **C1, amended.**  `infotodict` terminates normally — no exception —
provided every record of the (sorted) input satisfies the safety conditions
`recSafe`: a GRE-field-map record carries at least three imageType flags
(else `s.image_type[2]` raises `IndexError`), a functional record's
description yields a task name without error (else `extract_task_name`
raises `IndexError`), a T1w/T2w record is normalized or shares its
timestamp with no sibling, and no record matches the haste rule (the last
two because the `t1_dicom`/`t2_dicom` categories are absent from the initial
map, so those branches raise `KeyError`).  A record missing a *matching*
rule is merely skipped, but the exceptions above refute unconditional
totality. -/
theorem infotodict_total_of_safe (seqinfo : List SeriesRec) (direction : Str)
    (hsafe : ∀ p ∈ (sort_seqinfo_by_series_date_time seqinfo).enum,
      recSafe (sort_seqinfo_by_series_date_time seqinfo) p.1 p.2) :
    (infotodict seqinfo direction).isSome = true := by
  obtain ⟨st, hst, hinv⟩ := infotodict_fold_some direction
    (sort_seqinfo_by_series_date_time seqinfo)
    (sort_seqinfo_by_series_date_time seqinfo).enum
    (initInfo, ([] : RNs))
    ⟨fun k hk => hk, by decide, by decide⟩
    hsafe
  show ((List.foldlM (infoStep direction (sort_seqinfo_by_series_date_time seqinfo))
      (initInfo, ([] : RNs))
      (sort_seqinfo_by_series_date_time seqinfo).enum).bind
    (fun st => clean_up_unneeded_tags_from_info st.1)).isSome = true
  rw [hst]
  show (clean_up_unneeded_tags_from_info st.1).isSome = true
  obtain ⟨n, hn⟩ := clean_up_some hinv.2.1 hinv.2.2
  rw [hn]
  rfl

/-- **C1, witness.** -/
theorem infotodict_total_of_safe_witness :
    (∀ p ∈ (sort_seqinfo_by_series_date_time [recScoutW]).enum,
      recSafe (sort_seqinfo_by_series_date_time [recScoutW]) p.1 p.2) ∧
    (infotodict [recScoutW] []).isSome = true :=
  ⟨by decide, infotodict_total_of_safe [recScoutW] [] (by decide)⟩

/-!
### Idempotence of the cleanup pass on tame maps (claim C3)
-/

theorem tame_parts {t : Str} (h : tameT t = true) :
    (hasP t = true → hasP (eraseP t) = false ∧ hasQ (eraseP t) = false) ∧
    (hasQ t = true →
      (hasP (eraseQ t) = false ∧ hasQ (eraseQ t) = false) ∧
      (hasP (toR2 t) = false ∧ hasQ (toR2 t) = false)) := by
  simp only [tameT, Bool.and_eq_true, Bool.or_eq_true, Bool.not_eq_true'] at h
  constructor
  · intro hp
    rcases h.1 with h' | h'
    · exact absurd hp (by simp [h'])
    · exact h'
  · intro hq
    rcases h.2 with h' | h'
    · exact absurd hq (by simp [h'])
    · exact ⟨⟨h'.1.1.1, h'.1.1.2⟩, ⟨h'.1.2, h'.2⟩⟩

theorem replaceAllF_of_not_contains {pat rep : Str} :
    ∀ (s : Str) (fuel : Nat), containsAux pat s = false →
      replaceAllF pat rep fuel s = s := by
  intro s
  induction s with
  | nil => intro fuel _; cases fuel <;> rfl
  | cons c rest ih =>
      intro fuel h
      cases fuel with
      | zero => rfl
      | succ fuel' =>
          simp only [containsAux, Bool.or_eq_false_iff] at h
          rw [replaceAllF, if_neg (by simp [h.1])]
          rw [ih fuel' h.2]

theorem replaceAll_of_not_contains {s pat rep : Str}
    (h : containsSub s pat = false) : replaceAll s pat rep = s :=
  replaceAllF_of_not_contains s s.length h

/-- A template with no run markers is tame. -/
theorem tame_of_inert {t : Str} (hp : hasP t = false) (hq : hasQ t = false) :
    tameT t = true := by
  simp only [tameT, Bool.and_eq_true, Bool.or_eq_true, Bool.not_eq_true']
  exact ⟨Or.inl hp, Or.inl hq⟩

theorem mapM_keyHead_mem :
    ∀ {ks : List PKey} {ts : List Str}, ks.mapM keyHead = some ts →
      ∀ t, (t ∈ ts ↔ ∃ k ∈ ks, keyHead k = some t) := by
  intro ks
  induction ks with
  | nil =>
      intro ts h t
      simp only [List.mapM_nil] at h
      obtain rfl : ([] : List Str) = ts := by simpa using h
      simp
  | cons k rest ih =>
      intro ts h t
      rw [List.mapM_cons] at h
      cases hk : keyHead k with
      | none => rw [hk] at h; simp at h
      | some t0 =>
          rw [hk] at h
          cases hrest : rest.mapM keyHead with
          | none => rw [hrest] at h; simp at h
          | some ts' =>
              rw [hrest] at h
              obtain rfl : t0 :: ts' = ts := by simpa using h
              simp only [List.mem_cons]
              constructor
              · rintro (rfl | ht)
                · exact ⟨k, Or.inl rfl, hk⟩
                · obtain ⟨k', hk', hh⟩ := (ih hrest t).mp ht
                  exact ⟨k', Or.inr hk', hh⟩
              · rintro ⟨k', rfl | hk'', hh⟩
                · left
                  rw [hk] at hh
                  exact (Option.some.inj hh).symm
                · right
                  exact (ih hrest t).mpr ⟨k', hk'', hh⟩

theorem mem_allTemplates {m : PMap} {ts : List Str}
    (h : allTemplates m = some ts) (t : Str) :
    t ∈ ts ↔ tmplMem m t := by
  unfold allTemplates at h
  rw [mapM_keyHead_mem h t]
  unfold tmplMem
  constructor
  · rintro ⟨k, hk, hh⟩; exact ⟨k, hk, hh⟩
  · rintro ⟨k, hk, hh⟩; exact ⟨k, hk, hh⟩

theorem entry_unique {m : PMap} :
    (m.map Prod.fst).Nodup →
    ∀ {e : PKey × List Asg}, e ∈ m →
    ∀ {v : List Asg}, pyLookup m e.1 = some v → e.2 = v := by
  induction m with
  | nil => intro _ e he; exact absurd he (List.not_mem_nil e)
  | cons a rest ih =>
      intro hnd e he v hv
      rw [List.map_cons, List.nodup_cons] at hnd
      rcases List.mem_cons.mp he with rfl | he'
      · unfold pyLookup at hv
        rw [List.find?_cons_of_pos _ (by simp)] at hv
        simpa using hv
      · have hne : a.1 ≠ e.1 := by
          intro hc
          exact hnd.1 (hc ▸ List.mem_map_of_mem Prod.fst he')
        unfold pyLookup at hv
        rw [List.find?_cons_of_neg _ (by simpa using hne)] at hv
        exact ih hnd.2 he' hv

theorem mem_pyRemove {m : PMap} {k : PKey} {e : PKey × List Asg}
    (h : e ∈ pyRemove m k) : e ∈ m ∧ e.1 ≠ k := by
  unfold pyRemove at h
  have := List.mem_filter.mp h
  exact ⟨this.1, by simpa using this.2⟩

theorem mem_pySet_cases {m : PMap} {k : PKey} {v : List Asg}
    {e : PKey × List Asg} (h : e ∈ pySet m k v) :
    e = (k, v) ∨ (e ∈ m ∧ e.1 ≠ k) := by
  unfold pySet at h
  split_ifs at h with hk
  · obtain ⟨e0, he0, heq⟩ := List.mem_map.mp h
    by_cases he0k : e0.1 = k
    · rw [if_pos he0k] at heq
      exact Or.inl heq.symm
    · rw [if_neg he0k] at heq
      exact Or.inr ⟨heq ▸ he0, heq ▸ he0k⟩
  · rcases List.mem_append.mp h with h' | h'
    · refine Or.inr ⟨h', ?_⟩
      intro hc
      apply hk
      rw [hasKey_iff_mem_keys]
      exact hc ▸ List.mem_map_of_mem Prod.fst h'
    · simp only [List.mem_singleton] at h'
      exact Or.inl h'

theorem mem_keys_pySet_rev {m : PMap} {k k' : PKey} {v : List Asg}
    (h : k' ∈ (pySet m k v).map Prod.fst) :
    k' = k ∨ k' ∈ m.map Prod.fst := by
  rcases mapFst_pySet_cases m k v with ⟨_, heq⟩ | ⟨_, heq⟩
  · exact Or.inr (heq ▸ h)
  · rw [heq] at h
    rcases List.mem_append.mp h with h' | h'
    · exact Or.inr h'
    · simp only [List.mem_singleton] at h'
      exact Or.inl h'

/-- Exhaustive description of one cleanup-loop iteration on a present tuple
key of an all-tuple map: either nothing fires (and the no-fire conditions
hold), or one of the two rewrites fires with its guard. -/
theorem clean_up_step_cases {m : PMap} {kt0 : KeyT} {v : List Asg}
    (hv : pyLookup m (PKey.kt kt0) = some v)
    (hAll : ∀ x ∈ m.map Prod.fst, isKt x = true) :
    (clean_up_step m (PKey.kt kt0) = some m ∧
      ¬(v.length = 1 ∧ containsSub kt0.template runPh = true) ∧
      (containsSub kt0.template run01s = true →
        tmplMem m (toR2 kt0.template))) ∨
    (∃ t', ((t' = eraseP kt0.template ∧
          v.length = 1 ∧ containsSub kt0.template runPh = true) ∨
        (t' = eraseQ kt0.template ∧
          ¬(v.length = 1 ∧ containsSub kt0.template runPh = true) ∧
          containsSub kt0.template run01s = true ∧
          ¬ tmplMem m (toR2 kt0.template))) ∧
      clean_up_step m (PKey.kt kt0) =
        some (pySet (pyRemove m (PKey.kt kt0))
          (PKey.kt ⟨t', kt0.outtype, kt0.ann⟩) v)) := by
  unfold clean_up_step
  rw [hv]
  dsimp only [keyHead]
  by_cases hf1 : v.length = 1 ∧ containsSub kt0.template runPh = true
  · rw [if_pos hf1]
    exact Or.inr ⟨eraseP kt0.template, Or.inl ⟨rfl, hf1.1, hf1.2⟩, rfl⟩
  · rw [if_neg hf1]
    by_cases hq : containsSub kt0.template run01s = true
    · rw [if_pos hq]
      obtain ⟨ts, hts⟩ := allTemplates_some hAll
      rw [hts]
      dsimp only
      by_cases hsib : replaceAll kt0.template run01s run02s ∈ ts
      · rw [if_pos hsib]
        exact Or.inl ⟨rfl, hf1, fun _ => (mem_allTemplates hts _).mp hsib⟩
      · rw [if_neg hsib]
        refine Or.inr ⟨eraseQ kt0.template, Or.inr ⟨rfl, hf1, hq, ?_⟩, rfl⟩
        intro hmem
        exact hsib ((mem_allTemplates hts _).mpr hmem)
    · rw [if_neg hq]
      exact Or.inl ⟨rfl, hf1, fun hc => absurd hc (by simp [hq])⟩

/-- A map on which no entry fires either cleanup branch is a fixed point of
the cleanup fold. -/
theorem cleanup_nofire_fold {info : PMap}
    (hAll : ∀ x ∈ info.map Prod.fst, isKt x = true)
    (hnf : ∀ e ∈ info, NFEv info e) :
    ∀ ks : List PKey, (∀ k ∈ ks, k ∈ info.map Prod.fst) →
      ks.foldlM clean_up_step info = some info := by
  intro ks
  induction ks with
  | nil => intro _; rfl
  | cons k rest ih =>
      intro hmem
      have hkmem := hmem k (List.mem_cons_self _ _)
      obtain ⟨kt0, rfl⟩ : ∃ kt0, k = PKey.kt kt0 := by
        have h := hAll k hkmem
        cases k with
        | ks s => simp [isKt] at h
        | kt t => exact ⟨t, rfl⟩
      obtain ⟨v, hv⟩ := lookup_isSome_of_mem_keys hkmem
      have hemem : (PKey.kt kt0, v) ∈ info := pyLookup_mem hv
      have hnfe := hnf (PKey.kt kt0, v) hemem kt0 rfl
      have hstep : clean_up_step info (PKey.kt kt0) = some info := by
        rcases clean_up_step_cases hv hAll with ⟨h, _, _⟩ | ⟨t', hcase, _⟩
        · exact h
        · exfalso
          rcases hcase with ⟨_, hlen, hP⟩ | ⟨_, _, hq, hnm⟩
          · exact hnfe.1 ⟨hlen, hP⟩
          · exact hnm (hnfe.2 hq)
      rw [List.foldlM_cons, hstep]
      show rest.foldlM clean_up_step info = some info
      exact ih (fun k' hk' => hmem k' (List.mem_cons_of_mem _ hk'))

/-- The cleanup fold on a tame map never raises and establishes the no-fire
conditions: every key stays a tame tuple key (original or marker-free
rewrite), processed keys satisfy `NFEv`, and keys stay distinct. -/
theorem pass1_invariant (okl : List PKey) (hoklnd : okl.Nodup) :
    ∀ (ks₂ ks₁ : List PKey) (info : PMap),
      okl = ks₁ ++ ks₂ →
      KeysOK okl info →
      (∀ e ∈ info, e.1 ∈ ks₁ → NFEv info e) →
      (info.map Prod.fst).Nodup →
      (∀ k ∈ ks₂, k ∈ info.map Prod.fst) →
      ∃ n, ks₂.foldlM clean_up_step info = some n ∧
        KeysOK okl n ∧
        (∀ e ∈ n, e.1 ∈ okl → NFEv n e) ∧
        (n.map Prod.fst).Nodup := by
  intro ks₂
  induction ks₂ with
  | nil =>
      intro ks₁ info hsplit hKeys hNF hnd _
      refine ⟨info, rfl, hKeys, ?_, hnd⟩
      intro e he hok
      exact hNF e he (by rwa [hsplit, List.append_nil] at hok)
  | cons k₀ rest ih =>
      intro ks₁ info hsplit hKeys hNF hnd hpres
      have hk₀mem : k₀ ∈ info.map Prod.fst := hpres k₀ (List.mem_cons_self _ _)
      obtain ⟨kt0, hk₀eq, htame, _⟩ := hKeys k₀ hk₀mem
      subst hk₀eq
      obtain ⟨v, hv⟩ := lookup_isSome_of_mem_keys hk₀mem
      have hAllkt : ∀ x ∈ info.map Prod.fst, isKt x = true := by
        intro x hx
        obtain ⟨kt', hx', _⟩ := hKeys x hx
        rw [hx']
        rfl
      have hsplit' : okl = (ks₁ ++ [PKey.kt kt0]) ++ rest := by
        rw [hsplit, List.append_assoc]
        rfl
      have hk₀rest : PKey.kt kt0 ∉ rest := by
        have h2 : (PKey.kt kt0 :: rest).Nodup :=
          ((hsplit ▸ hoklnd).of_append_right)
        exact (List.nodup_cons.mp h2).1
      rcases clean_up_step_cases hv hAllkt with
        ⟨hstep, hnof1, hnof2⟩ | ⟨t', hcase, hstep⟩
      · -- nothing fires: the map is unchanged
        rw [List.foldlM_cons, hstep]
        show ∃ n, rest.foldlM clean_up_step info = some n ∧ KeysOK okl n ∧
          (∀ e ∈ n, e.1 ∈ okl → NFEv n e) ∧ (n.map Prod.fst).Nodup
        apply ih (ks₁ ++ [PKey.kt kt0]) info hsplit' hKeys ?_ hnd
          (fun k hk => hpres k (List.mem_cons_of_mem _ hk))
        intro e he hin
        rcases List.mem_append.mp hin with h1 | h1
        · exact hNF e he h1
        · simp only [List.mem_singleton] at h1
          intro kt0' hkt0'
          have hkk : kt0' = kt0 := PKey.kt.inj (by rw [← hkt0', h1])
          subst hkk
          have hv2 : e.2 = v := entry_unique hnd he (by rw [hkt0']; exact hv)
          rw [hv2]
          exact ⟨hnof1, hnof2⟩
      · -- one of the rewrites fires
        have hInert : hasP t' = false ∧ hasQ t' = false := by
          have hp := tame_parts htame
          rcases hcase with ⟨rfl, _, hP⟩ | ⟨rfl, _, hq, _⟩
          · exact hp.1 hP
          · exact (hp.2 hq).1
        have hfire : hasP kt0.template = true ∨ hasQ kt0.template = true := by
          rcases hcase with ⟨_, _, hP⟩ | ⟨_, _, hq, _⟩
          · exact Or.inl hP
          · exact Or.inr hq
        have hk1ne : PKey.kt (⟨t', kt0.outtype, kt0.ann⟩ : KeyT) ≠ PKey.kt kt0 := by
          intro hc
          have ht' : t' = kt0.template := congrArg KeyT.template (PKey.kt.inj hc)
          rcases hfire with h | h
          · rw [← ht', hInert.1] at h
            exact Bool.noConfusion h
          · rw [← ht', hInert.2] at h
            exact Bool.noConfusion h
        obtain ⟨pAll, pNd, pSurv⟩ :=
          @rewrite_props info (PKey.kt kt0)
            (PKey.kt ⟨t', kt0.outtype, kt0.ann⟩) v hAllkt hnd rfl
        rw [List.foldlM_cons, hstep]
        show ∃ n, rest.foldlM clean_up_step
            (pySet (pyRemove info (PKey.kt kt0))
              (PKey.kt ⟨t', kt0.outtype, kt0.ann⟩) v) = some n ∧
          KeysOK okl n ∧ (∀ e ∈ n, e.1 ∈ okl → NFEv n e) ∧
          (n.map Prod.fst).Nodup
        apply ih (ks₁ ++ [PKey.kt kt0]) _ hsplit' ?_ ?_ pNd ?_
        · -- KeysOK of the rewritten map
          intro x hx
          rcases mem_keys_pySet_rev hx with rfl | hx'
          · exact ⟨⟨t', kt0.outtype, kt0.ann⟩, rfl,
              tame_of_inert hInert.1 hInert.2, Or.inr hInert⟩
          · rw [mapFst_pyRemove] at hx'
            exact hKeys x (List.mem_of_mem_filter hx')
        · -- NFEv for processed keys
          intro e he hin
          rcases mem_pySet_cases he with rfl | ⟨he', hne1⟩
          · -- the freshly written entry: marker-free template
            intro kt0' hkt0'
            have hkk : kt0' = ⟨t', kt0.outtype, kt0.ann⟩ :=
              (PKey.kt.inj hkt0').symm
            subst hkk
            refine ⟨?_, ?_⟩
            · rintro ⟨_, hP⟩
              rw [show containsSub t' runPh = hasP t' from rfl, hInert.1] at hP
              exact Bool.noConfusion hP
            · intro hq
              rw [show containsSub t' run01s = hasQ t' from rfl, hInert.2] at hq
              exact Bool.noConfusion hq
          · -- a surviving entry
            obtain ⟨heinfo, hnek0⟩ := mem_pyRemove he'
            have hin' : e.1 ∈ ks₁ := by
              rcases List.mem_append.mp hin with h1 | h1
              · exact h1
              · simp only [List.mem_singleton] at h1
                exact absurd h1 hnek0
            have hnfe := hNF e heinfo hin'
            intro kt0' hkt0'
            obtain ⟨c1, c2⟩ := hnfe kt0' hkt0'
            refine ⟨c1, fun hq => ?_⟩
            obtain ⟨ksib, hksmem, hkshead⟩ := c2 hq
            have hksne : ksib ≠ PKey.kt kt0 := by
              intro hc
              subst hc
              have hteq : kt0.template = toR2 kt0'.template := by
                simpa [keyHead] using hkshead
              have hxmem : e.1 ∈ info.map Prod.fst :=
                List.mem_map_of_mem Prod.fst heinfo
              obtain ⟨ktx, hktx, htamex, _⟩ := hKeys e.1 hxmem
              have hktxeq : ktx = kt0' :=
                PKey.kt.inj (by rw [← hktx, hkt0'])
              subst hktxeq
              have hR := ((tame_parts htamex).2 hq).2
              rcases hfire with h | h
              · rw [hteq, hR.1] at h
                exact Bool.noConfusion h
              · rw [hteq, hR.2] at h
                exact Bool.noConfusion h
            exact ⟨ksib, pSurv ksib hksmem hksne, hkshead⟩
        · -- remaining keys survive
          intro k hk
          exact pSurv k (hpres k (List.mem_cons_of_mem _ hk))
            (fun hc => hk₀rest (hc ▸ hk))

/-- **C3, amended.**  The cleanup pass is idempotent on every map whose keys
are distinct tuple keys with *tame* templates — templates in which erasing
either run marker, or substituting `'_run-02'` for `'_run-01'`, leaves no
run marker (every template the heuristic builds is tame; in particular no
tame template mixes the generic placeholder with a hard-coded `'_run-01'`).
Unrestricted idempotence is false: the counterexample's mixed template is
rewritten again by a second pass. -/
theorem cleanup_idempotent_of_tame (m : PMap)
    (htame : tameMap m = true) (hnd : (m.map Prod.fst).Nodup) :
    ∃ n, clean_up_unneeded_tags_from_info m = some n ∧
      clean_up_unneeded_tags_from_info n = some n := by
  have hKeys0 : KeysOK (m.map Prod.fst) m := by
    intro k hk
    obtain ⟨e, he, hek⟩ := List.mem_map.mp hk
    rw [tameMap, List.all_eq_true] at htame
    have ht := htame e he
    cases hke : e.1 with
    | ks s => rw [hke] at ht; simp at ht
    | kt kt0 =>
        rw [hke] at ht
        exact ⟨kt0, by rw [← hek, hke], by simpa using ht, Or.inl hk⟩
  obtain ⟨n, hfold, hKeysN, hNFN, hndN⟩ :=
    pass1_invariant (m.map Prod.fst) hnd (m.map Prod.fst) [] m rfl hKeys0
      (fun e _ h => absurd h (List.not_mem_nil _)) hnd (fun k hk => hk)
  have hAlln : ∀ x ∈ n.map Prod.fst, isKt x = true := by
    intro x hx
    obtain ⟨kt0, h1, _⟩ := hKeysN x hx
    rw [h1]
    rfl
  have hnfn : ∀ e ∈ n, NFEv n e := by
    intro e he
    obtain ⟨kt0, h1, _, hdisj⟩ := hKeysN e.1 (List.mem_map_of_mem Prod.fst he)
    rcases hdisj with hok | hinert
    · exact hNFN e he hok
    · intro kt0' hkt0'
      have hkk : kt0' = kt0 := PKey.kt.inj (by rw [← hkt0', h1])
      subst hkk
      refine ⟨?_, ?_⟩
      · rintro ⟨_, hP⟩
        rw [show containsSub kt0'.template runPh = hasP kt0'.template from rfl,
          hinert.1] at hP
        exact Bool.noConfusion hP
      · intro hq
        rw [show containsSub kt0'.template run01s = hasQ kt0'.template from rfl,
          hinert.2] at hq
        exact Bool.noConfusion hq
  refine ⟨n, ?_, ?_⟩
  · show (m.map (fun e => e.1)).foldlM clean_up_step m = some n
    exact hfold
  · show (n.map (fun e => e.1)).foldlM clean_up_step n = some n
    exact cleanup_nofire_fold hAlln hnfn _ (fun k hk => hk)

/-- **C3, witness.** -/
theorem cleanup_idempotent_of_tame_witness :
    (tameMap wTameM = true ∧ (wTameM.map Prod.fst).Nodup) ∧
    ∃ n, clean_up_unneeded_tags_from_info wTameM = some n ∧
      clean_up_unneeded_tags_from_info n = some n :=
  ⟨⟨by decide, by decide⟩,
   cleanup_idempotent_of_tame wTameM (by decide) (by decide)⟩

end BidsLong
